import Mathlib

/-!
Verification of the schema-inference and schema-merging core of the
swag-doc repository (Go).  The Go sources are shallowly embedded:

* decoded JSON values (Go `interface{}` produced by `encoding/json`)
  become the inductive type `Val`;
* the OpenAPI `Schema` struct becomes the inductive `Schema`
  (Go maps become association lists, Go `*Schema` becomes `Option Schema`);
* Go `float64` numbers decoded from JSON are modelled by `Rat`; the Go
  test `v == float64(int64(v))` (and parser.go's `v == float64(int(v))`)
  is modelled by `int64RoundTrips`: the value is an integer AND lies in
  the int64 range.  For a double inside the range the conversion is exact
  in both directions, so the test means exactly that; for an integral
  double outside the range (such as 1e19) the out-of-range conversion
  does not round-trip and the test is false;
* the `TypeInferrer`'s mutable `samples` map becomes an explicit state
  that every operation takes and returns;
* Go map iteration (whose order is unspecified) is modelled by iterating
  an association list; theorems that depend on iteration order take the
  order as a parameter and quantify over it.

Function and field names follow the Go sources (`type_inference.go`,
`parser.go`, `schema_merger.go`); `Example` is rendered `exampleVal`
because of a Lean keyword clash.
-/

/-- A decoded JSON value, i.e. the Go `interface{}` values produced by
`encoding/json.Unmarshal`: nil, bool, float64, string,
`[]interface{}` and `map[string]interface{}` (as an association list). -/
inductive Val where
  | vnull : Val
  | vbool (b : Bool) : Val
  | vnum (q : Rat) : Val
  | vstr (s : String) : Val
  | varr (items : List Val) : Val
  | vobj (fields : List (String × Val)) : Val

mutual

/-- Equality of decoded JSON values; models Go interface equality
(`==` on `interface{}` and `reflect.DeepEqual`) for these value kinds. -/
def valBeq : Val → Val → Bool
  | .vnull, .vnull => true
  | .vbool a, .vbool b => a == b
  | .vnum a, .vnum b => a == b
  | .vstr a, .vstr b => a == b
  | .varr a, .varr b => valListBeq a b
  | .vobj a, .vobj b => valFieldsBeq a b
  | _, _ => false

/-- Pointwise equality of JSON value lists. -/
def valListBeq : List Val → List Val → Bool
  | [], [] => true
  | a :: as, b :: bs => valBeq a b && valListBeq as bs
  | _, _ => false

/-- Pointwise equality of JSON object field lists. -/
def valFieldsBeq : List (String × Val) → List (String × Val) → Bool
  | [], [] => true
  | (ka, va) :: as, (kb, vb) :: bs => ka == kb && valBeq va vb && valFieldsBeq as bs
  | _, _ => false

end

theorem valListBeq_iff_aux (xs ys : List Val)
    (h : ∀ x ∈ xs, ∀ y, valBeq x y = true ↔ x = y) :
    valListBeq xs ys = true ↔ xs = ys := by
  induction xs generalizing ys with
  | nil => cases ys <;> simp [valListBeq]
  | cons x xs ihx =>
    cases ys with
    | nil => simp [valListBeq]
    | cons y ys =>
      simp only [valListBeq, Bool.and_eq_true, List.cons.injEq]
      rw [h x (by simp) y, ihx ys (fun z hz y2 => h z (by simp [hz]) y2)]

theorem valFieldsBeq_iff_aux (xs ys : List (String × Val))
    (h : ∀ p ∈ xs, ∀ y, valBeq p.2 y = true ↔ p.2 = y) :
    valFieldsBeq xs ys = true ↔ xs = ys := by
  induction xs generalizing ys with
  | nil => cases ys <;> simp [valFieldsBeq]
  | cons x xs ihx =>
    obtain ⟨kx, vx⟩ := x
    cases ys with
    | nil => simp [valFieldsBeq]
    | cons y ys =>
      obtain ⟨ky, vy⟩ := y
      simp only [valFieldsBeq, Bool.and_eq_true, List.cons.injEq, Prod.mk.injEq, beq_iff_eq]
      rw [h (kx, vx) (by simp) vy, ihx ys (fun z hz y2 => h z (by simp [hz]) y2)]

theorem valBeq_iff : ∀ a b : Val, valBeq a b = true ↔ a = b := by
  have H : ∀ n, ∀ a b : Val, sizeOf a ≤ n → (valBeq a b = true ↔ a = b) := by
    intro n
    induction n using Nat.strong_induction_on with
    | _ n ih =>
      intro a b hsz
      cases a with
      | vnull => cases b <;> simp [valBeq]
      | vbool x => cases b <;> simp [valBeq]
      | vnum x => cases b <;> simp [valBeq]
      | vstr x => cases b <;> simp [valBeq]
      | varr xs =>
        cases b with
        | varr ys =>
          simp only [valBeq, Val.varr.injEq]
          refine valListBeq_iff_aux xs ys (fun x hx y => ?_)
          have h1 : sizeOf x < sizeOf xs := List.sizeOf_lt_of_mem hx
          have h2 : sizeOf xs < sizeOf (Val.varr xs) := by simp
          exact ih (sizeOf x) (by omega) x y le_rfl
        | vnull => simp [valBeq]
        | vbool _ => simp [valBeq]
        | vnum _ => simp [valBeq]
        | vstr _ => simp [valBeq]
        | vobj _ => simp [valBeq]
      | vobj xs =>
        cases b with
        | vobj ys =>
          simp only [valBeq, Val.vobj.injEq]
          refine valFieldsBeq_iff_aux xs ys (fun p hp y => ?_)
          have h1 : sizeOf p < sizeOf xs := List.sizeOf_lt_of_mem hp
          have h2 : sizeOf xs < sizeOf (Val.vobj xs) := by simp
          have h3 : sizeOf p.2 < sizeOf p := by
            obtain ⟨k, v⟩ := p
            simp
          exact ih (sizeOf p.2) (by omega) p.2 y le_rfl
        | vnull => simp [valBeq]
        | vbool _ => simp [valBeq]
        | vnum _ => simp [valBeq]
        | vstr _ => simp [valBeq]
        | varr _ => simp [valBeq]
  exact fun a b => H (sizeOf a) a b le_rfl

instance : DecidableEq Val := fun a b =>
  decidable_of_iff (valBeq a b = true) (valBeq_iff a b)

/-- The OpenAPI `Schema` struct of `pkg/parser/parser.go`, restricted to the
fields the inference/merging core reads or writes (`Type`, `Format`,
`Properties`, `Items`, `Required`, `Enum`, `Example`, `Nullable`; the
remaining fields are never touched by the verified functions and always
keep their zero values there).  The Go `map[string]Schema` becomes an
association list and `*Schema` becomes `Option Schema`; Go's nil map and
empty map are identified with the empty list.  `Example` is called
`exampleVal` (keyword clash). -/
inductive Schema where
  | mk (type format : String)
       (properties : List (String × Schema))
       (items : Option Schema)
       (required : List String)
       (enum : List Val)
       (exampleVal : Option Val)
       (nullable : Bool) : Schema

/-- The `Type` field. -/
def Schema.type : Schema → String
  | .mk t _ _ _ _ _ _ _ => t

/-- The `Format` field. -/
def Schema.format : Schema → String
  | .mk _ f _ _ _ _ _ _ => f

/-- The `Properties` field. -/
def Schema.properties : Schema → List (String × Schema)
  | .mk _ _ p _ _ _ _ _ => p

/-- The `Items` field. -/
def Schema.items : Schema → Option Schema
  | .mk _ _ _ i _ _ _ _ => i

/-- The `Required` field. -/
def Schema.required : Schema → List String
  | .mk _ _ _ _ r _ _ _ => r

/-- The `Enum` field. -/
def Schema.enum : Schema → List Val
  | .mk _ _ _ _ _ e _ _ => e

/-- The `Example` field. -/
def Schema.exampleVal : Schema → Option Val
  | .mk _ _ _ _ _ _ x _ => x

/-- The `Nullable` field. -/
def Schema.nullable : Schema → Bool
  | .mk _ _ _ _ _ _ _ n => n

/-- The zero value `Schema{}` of the Go struct. -/
def Schema.empty : Schema := .mk "" "" [] none [] [] none false

/-! ### Character classes used by the Go regular expressions -/

/-- The regex class [0-9]. -/
def isDigitChar (c : Char) : Bool := '0' ≤ c && c ≤ '9'

/-- The regex class [0-9a-f]. -/
def isHexLowerChar (c : Char) : Bool := isDigitChar c || ('a' ≤ c && c ≤ 'f')

/-- The regex class [0-9a-fA-F]. -/
def isHexChar (c : Char) : Bool := isHexLowerChar c || ('A' ≤ c && c ≤ 'F')

/-- The regex class [a-zA-Z]. -/
def isAlphaChar (c : Char) : Bool := ('a' ≤ c && c ≤ 'z') || ('A' ≤ c && c ≤ 'Z')

/-- The regex class [0-9a-zA-Z]. -/
def isAlnumChar (c : Char) : Bool := isDigitChar c || isAlphaChar c

/-- The RE2 class \s, namely [\t\n\f\r ]. -/
def isSpaceChar (c : Char) : Bool :=
  c == ' ' || c == '\t' || c == '\n' || c == '\x0c' || c == '\r'

/-- The regex class [a-zA-Z0-9._%+-] (local part of the email pattern). -/
def isEmailLocalChar (c : Char) : Bool :=
  isAlnumChar c || c == '.' || c == '_' || c == '%' || c == '+' || c == '-'

/-- The regex class [a-zA-Z0-9.-] (domain part of the email pattern). -/
def isEmailDomainChar (c : Char) : Bool := isAlnumChar c || c == '.' || c == '-'

/-- Splits a character list at every occurrence of the separator; adjacent,
leading and trailing separators yield empty parts, so the result always has
(number of separators) + 1 parts. -/
def splitOnChar (c : Char) : List Char → List (List Char)
  | [] => [[]]
  | x :: xs =>
    if x == c then [] :: splitOnChar c xs
    else
      match splitOnChar c xs with
      | p :: ps => (x :: p) :: ps
      | [] => [[x]]

/-! ### The eight compiled patterns of `NewTypeInferrer` (type_inference.go)

Each Go regexp (anchored on both sides) is embedded as an executable
matcher on the string's character list.  The embedding of each pattern is
a direct transcription of the regex's anchored structure. -/

/-- The uuid pattern:
a 8-4-4-4-12 dash-separated string of lowercase hex digits. -/
def uuidMatch (l : List Char) : Bool :=
  let parts := splitOnChar '-' l
  parts.map List.length == [8, 4, 4, 4, 12] && parts.all (fun p => p.all isHexLowerChar)

/-- The date pattern: 4 digits, dash, 2 digits, dash, 2 digits. -/
def dateMatch (l : List Char) : Bool :=
  match l with
  | [y1, y2, y3, y4, '-', m1, m2, '-', d1, d2] =>
    isDigitChar y1 && isDigitChar y2 && isDigitChar y3 && isDigitChar y4 &&
    isDigitChar m1 && isDigitChar m2 && isDigitChar d1 && isDigitChar d2
  | _ => false

/-- The optional zone suffix (Z|[+-]dd:dd)? followed by end of string. -/
def timeZonePart : List Char → Bool
  | [] => true
  | ['Z'] => true
  | ['+', a, b, ':', c, d] =>
    isDigitChar a && isDigitChar b && isDigitChar c && isDigitChar d
  | ['-', a, b, ':', c, d] =>
    isDigitChar a && isDigitChar b && isDigitChar c && isDigitChar d
  | _ => false

/-- The optional fraction (\.\d+)? followed by the zone suffix. -/
def timeFracPart : List Char → Bool
  | '.' :: rest =>
    !(rest.takeWhile isDigitChar).isEmpty && timeZonePart (rest.dropWhile isDigitChar)
  | l => timeZonePart l

/-- The optional seconds (:\d\d)? followed by fraction and zone. -/
def timeTailPart : List Char → Bool
  | ':' :: c :: d :: rest =>
    if isDigitChar c && isDigitChar d then timeFracPart rest else timeFracPart (':' :: c :: d :: rest)
  | l => timeFracPart l

/-- The time pattern: dd:dd, optional seconds, fraction and zone. -/
def timeMatch (l : List Char) : Bool :=
  match l with
  | a :: b :: ':' :: c :: d :: rest =>
    isDigitChar a && isDigitChar b && isDigitChar c && isDigitChar d && timeTailPart rest
  | _ => false

/-- The datetime pattern: the date pattern, a literal T, then the time
pattern's body. -/
def datetimeMatch (l : List Char) : Bool :=
  match l with
  | y1 :: y2 :: y3 :: y4 :: '-' :: m1 :: m2 :: '-' :: d1 :: d2 :: 'T' :: rest =>
    isDigitChar y1 && isDigitChar y2 && isDigitChar y3 && isDigitChar y4 &&
    isDigitChar m1 && isDigitChar m2 && isDigitChar d1 && isDigitChar d2 &&
    timeMatch rest
  | _ => false

/-- One octet of the ipv4 pattern: 25[0-5] | 2[0-4][0-9] | [01]?[0-9][0-9]? . -/
def ipv4Octet (p : List Char) : Bool :=
  match p with
  | [a] => isDigitChar a
  | [a, b] => isDigitChar a && isDigitChar b
  | [a, b, c] =>
    (a == '2' && b == '5' && '0' ≤ c && c ≤ '5') ||
    (a == '2' && '0' ≤ b && b ≤ '4' && isDigitChar c) ||
    ((a == '0' || a == '1') && isDigitChar b && isDigitChar c)
  | _ => false

/-- The ipv4 pattern: four octets separated by dots. -/
def ipv4Match (l : List Char) : Bool :=
  let parts := splitOnChar '.' l
  parts.length == 4 && parts.all ipv4Octet

/-- The domain part of the email pattern, [a-zA-Z0-9.-]+\.[a-zA-Z]{2,}$ :
the final label (after the last dot) is alphabetic of length at least 2 and
the part before that dot is a nonempty run of domain characters. -/
def emailDomainOk (d : List Char) : Bool :=
  let revD := d.reverse
  let tld := revD.takeWhile (fun c => c != '.')
  match revD.dropWhile (fun c => c != '.') with
  | '.' :: beforeRev =>
    decide (2 ≤ tld.length) && tld.all isAlphaChar &&
    !beforeRev.isEmpty && beforeRev.all isEmailDomainChar
  | _ => false

/-- The email pattern: a nonempty run of local characters, the first @, and
the domain part (local characters exclude @, so the @ matched by the regex
is the first @ of the string). -/
def emailMatch (l : List Char) : Bool :=
  let localPart := l.takeWhile (fun c => c != '@')
  match l.dropWhile (fun c => c != '@') with
  | '@' :: domainAll =>
    !localPart.isEmpty && localPart.all isEmailLocalChar && emailDomainOk domainAll
  | _ => false

/-- The part of the uri pattern after the scheme: one character outside
\s/$.?# , one character other than newline (RE2 dot), then non-space
characters. -/
def uriTail (l : List Char) : Bool :=
  match l with
  | c1 :: c2 :: rest =>
    !isSpaceChar c1 && c1 != '/' && c1 != '$' && c1 != '.' && c1 != '?' && c1 != '#' &&
    c2 != '\n' && rest.all (fun c => !isSpaceChar c)
  | _ => false

/-- The uri pattern: scheme http, https or ftp, then ://, then `uriTail`. -/
def uriMatch (l : List Char) : Bool :=
  match l with
  | 'h' :: 't' :: 't' :: 'p' :: 's' :: ':' :: '/' :: '/' :: rest => uriTail rest
  | 'h' :: 't' :: 't' :: 'p' :: ':' :: '/' :: '/' :: rest => uriTail rest
  | 'f' :: 't' :: 'p' :: ':' :: '/' :: '/' :: rest => uriTail rest
  | _ => false

/-! ### ipv6 pattern

The Go ipv6 regex is an anchored alternation of twelve branches.  Every
branch except the fe80/zone branch is a colon-separated sequence of hex
groups (with an optional trailing ipv4 tail), so each such branch is
expressed as a condition on `splitOnChar ':'` of the string: a hex group
becomes a nonempty part of length at most 4, a double colon becomes an
empty part, a leading colon an empty leading part, and a trailing colon an
empty trailing part. -/

/-- A hex group [0-9a-fA-F]{1,4} as a part of the colon split. -/
def ipv6GoodPart (p : List Char) : Bool :=
  decide (1 ≤ p.length) && decide (p.length ≤ 4) && p.all isHexChar

/-- Branch ([0-9a-fA-F]{1,4}:){7,7}[0-9a-fA-F]{1,4} : eight hex groups. -/
def ipv6Alt1 (parts : List (List Char)) : Bool :=
  parts.length == 8 && parts.all ipv6GoodPart

/-- Branch ([0-9a-fA-F]{1,4}:){1,7}: — one to seven hex groups, each
followed by a colon, then a final colon: the split is the groups followed
by two empty parts. -/
def ipv6Alt2 (parts : List (List Char)) : Bool :=
  match parts.reverse with
  | [] :: [] :: revGroups =>
    decide (1 ≤ revGroups.length) && decide (revGroups.length ≤ 7) &&
    revGroups.all ipv6GoodPart
  | _ => false

/-- The six branches ([0-9a-fA-F]{1,4}:){1,k}(:[0-9a-fA-F]{1,4}){1,m} (and
the {1,6}:H and H:(…){1,6} forms): k leading groups, a double colon, then m
trailing groups; the split is k good parts, one empty part, m good parts. -/
def ipv6AltMid (parts : List (List Char)) (kmax mmax : Nat) : Bool :=
  let A := parts.takeWhile (fun p => !p.isEmpty)
  match parts.dropWhile (fun p => !p.isEmpty) with
  | [] :: B =>
    decide (1 ≤ A.length) && decide (A.length ≤ kmax) && A.all ipv6GoodPart &&
    decide (1 ≤ B.length) && decide (B.length ≤ mmax) && B.all ipv6GoodPart
  | _ => false

/-- Branch :((:[0-9a-fA-F]{1,4}){1,7}|:) — a leading double colon then one
to seven groups, or the bare double colon. -/
def ipv6Alt9 (parts : List (List Char)) : Bool :=
  match parts with
  | [] :: [] :: B =>
    (decide (1 ≤ B.length) && decide (B.length ≤ 7) && B.all ipv6GoodPart) ||
    B == [([] : List Char)]
  | _ => false

/-- Branch fe80:(:[0-9a-fA-F]{0,4}){0,4}%[0-9a-zA-Z]{1,} — the zone id
contains no %, so the % of the match is the first % of the string; the part
before it is fe80: followed by up to four groups each introduced by a colon
(each group may be empty), so its colon split is fe80, an empty part, then
the up-to-four groups of length at most 4. -/
def ipv6Alt10 (l : List Char) : Bool :=
  match l.dropWhile (fun c => c != '%') with
  | '%' :: zone =>
    decide (1 ≤ zone.length) && zone.all isAlnumChar &&
    (match splitOnChar ':' (l.takeWhile (fun c => c != '%')) with
     | fe :: e :: groups =>
       fe == ['f', 'e', '8', '0'] && e == ([] : List Char) &&
       decide (groups.length ≤ 4) &&
       groups.all (fun g => decide (g.length ≤ 4) && g.all isHexChar)
     | _ => false)
  | _ => false

/-- One octet of the ipv4 tail inside the ipv6 regex:
25[0-5] | (2[0-4]|1{0,1}[0-9]){0,1}[0-9] . -/
def ipv6InnerOctet (p : List Char) : Bool :=
  match p with
  | [a] => isDigitChar a
  | [a, b] => isDigitChar a && isDigitChar b
  | [a, b, c] =>
    (a == '2' && b == '5' && '0' ≤ c && c ≤ '5') ||
    (a == '2' && '0' ≤ b && b ≤ '4' && isDigitChar c) ||
    (a == '1' && isDigitChar b && isDigitChar c)
  | _ => false

/-- The ipv4 tail of the ipv6 regex: four inner octets separated by dots. -/
def ipv6InnerIpv4 (p : List Char) : Bool :=
  let parts := splitOnChar '.' p
  parts.length == 4 && parts.all ipv6InnerOctet

/-- Branch ::(ffff(:0{1,4}){0,1}:){0,1}(ipv4) — a leading double colon,
optionally ffff (and optionally a group of one to four zeros), then the
ipv4 tail. -/
def ipv6Alt11 (parts : List (List Char)) : Bool :=
  match parts with
  | [] :: [] :: rest =>
    match rest with
    | [p] => ipv6InnerIpv4 p
    | [f, p] => f == ['f', 'f', 'f', 'f'] && ipv6InnerIpv4 p
    | [f, z, p] =>
      f == ['f', 'f', 'f', 'f'] &&
      decide (1 ≤ z.length) && decide (z.length ≤ 4) && z.all (fun c => c == '0') &&
      ipv6InnerIpv4 p
    | _ => false
  | _ => false

/-- Branch ([0-9a-fA-F]{1,4}:){1,4}:(ipv4) — one to four groups, a double
colon, then the ipv4 tail. -/
def ipv6Alt12 (parts : List (List Char)) : Bool :=
  let A := parts.takeWhile (fun p => !p.isEmpty)
  match parts.dropWhile (fun p => !p.isEmpty) with
  | [[], p] =>
    decide (1 ≤ A.length) && decide (A.length ≤ 4) && A.all ipv6GoodPart &&
    ipv6InnerIpv4 p
  | _ => false

/-- The full ipv6 pattern: the alternation of the twelve branches. -/
def ipv6Match (l : List Char) : Bool :=
  let parts := splitOnChar ':' l
  ipv6Alt1 parts || ipv6Alt2 parts ||
  ipv6AltMid parts 6 1 || ipv6AltMid parts 5 2 || ipv6AltMid parts 4 3 ||
  ipv6AltMid parts 3 4 || ipv6AltMid parts 2 5 || ipv6AltMid parts 1 6 ||
  ipv6Alt9 parts || ipv6Alt10 l || ipv6Alt11 parts || ipv6Alt12 parts

/-! ### Structural fallbacks of `inferStringFormat`

`inferStringFormat` falls back to Go's `time.Parse` with the RFC3339 and
`2006-01-02` layouts and to `strconv.ParseFloat`.  These standard-library
functions are modelled here: success/failure of the strict RFC3339 parse
(four-digit year, ranges checked, day checked against the month and leap
year, optional fraction, Z or hh:mm zone), of the fixed-width date layout
parse, and of `ParseFloat` (decimal or hex mantissa with optional exponent,
underscore rules, signed inf/infinity and nan, range errors at the double
overflow/underflow boundaries). -/

/-- The numeric value of two digit characters. -/
def num2 (a b : Char) : Nat := 10 * (a.toNat - 48) + (b.toNat - 48)

/-- The numeric value of four digit characters. -/
def num4 (a b c d : Char) : Nat := 100 * num2 a b + num2 c d

/-- The Gregorian leap-year rule (Go `isLeap`). -/
def isLeapYear (y : Nat) : Bool := (y % 4 == 0 && y % 100 != 0) || y % 400 == 0

/-- Days in a month (Go `daysIn`). -/
def daysIn (m y : Nat) : Nat :=
  if m == 2 then (if isLeapYear y then 29 else 28)
  else if m == 4 || m == 6 || m == 9 || m == 11 then 30
  else 31

/-- The zone of Go's strict RFC3339 parse: Z, or a sign and hh:mm with
hh at most 23 and mm at most 59, ending the string. -/
def rfc3339Zone : List Char → Bool
  | ['Z'] => true
  | [sg, a, b, ':', c, d] =>
    (sg == '+' || sg == '-') &&
    isDigitChar a && isDigitChar b && isDigitChar c && isDigitChar d &&
    decide (num2 a b ≤ 23) && decide (num2 c d ≤ 59)
  | _ => false

/-- The optional fractional second of the strict RFC3339 parse (a dot and
at least one digit), then the zone. -/
def rfc3339Tail : List Char → Bool
  | '.' :: c :: rest =>
    if isDigitChar c then rfc3339Zone ((c :: rest).dropWhile isDigitChar)
    else rfc3339Zone ('.' :: c :: rest)
  | l => rfc3339Zone l

/-- Success of Go's `time.Parse(time.RFC3339, s)` (strict since Go 1.20). -/
def rfc3339Parses (l : List Char) : Bool :=
  match l with
  | y1 :: y2 :: y3 :: y4 :: '-' :: m1 :: m2 :: '-' :: d1 :: d2 :: 'T' ::
    h1 :: h2 :: ':' :: n1 :: n2 :: ':' :: s1 :: s2 :: rest =>
    isDigitChar y1 && isDigitChar y2 && isDigitChar y3 && isDigitChar y4 &&
    isDigitChar m1 && isDigitChar m2 && isDigitChar d1 && isDigitChar d2 &&
    isDigitChar h1 && isDigitChar h2 && isDigitChar n1 && isDigitChar n2 &&
    isDigitChar s1 && isDigitChar s2 &&
    decide (1 ≤ num2 m1 m2) && decide (num2 m1 m2 ≤ 12) &&
    decide (1 ≤ num2 d1 d2) && decide (num2 d1 d2 ≤ daysIn (num2 m1 m2) (num4 y1 y2 y3 y4)) &&
    decide (num2 h1 h2 ≤ 23) && decide (num2 n1 n2 ≤ 59) && decide (num2 s1 s2 ≤ 59) &&
    rfc3339Tail rest
  | _ => false

/-- Success of Go's `time.Parse("2006-01-02", s)` and
`time.Parse("2006/01/02", s)` (fixed-width fields, ranges checked, day
checked against the month). -/
def dateLayoutParses (sep : Char) (l : List Char) : Bool :=
  match l with
  | [y1, y2, y3, y4, c1, m1, m2, c2, d1, d2] =>
    c1 == sep && c2 == sep &&
    isDigitChar y1 && isDigitChar y2 && isDigitChar y3 && isDigitChar y4 &&
    isDigitChar m1 && isDigitChar m2 && isDigitChar d1 && isDigitChar d2 &&
    decide (1 ≤ num2 m1 m2) && decide (num2 m1 m2 ≤ 12) &&
    decide (1 ≤ num2 d1 d2) && decide (num2 d1 d2 ≤ daysIn (num2 m1 m2) (num4 y1 y2 y3 y4))
  | _ => false

/-- Success of Go's `time.Parse("2006-01-02T15:04:05", s)`: the fixed
fields, then an optional fraction introduced by a dot or comma, then end of
input. -/
def dtNoZoneParses (l : List Char) : Bool :=
  match l with
  | y1 :: y2 :: y3 :: y4 :: '-' :: m1 :: m2 :: '-' :: d1 :: d2 :: 'T' ::
    h1 :: h2 :: ':' :: n1 :: n2 :: ':' :: s1 :: s2 :: rest =>
    isDigitChar y1 && isDigitChar y2 && isDigitChar y3 && isDigitChar y4 &&
    isDigitChar m1 && isDigitChar m2 && isDigitChar d1 && isDigitChar d2 &&
    isDigitChar h1 && isDigitChar h2 && isDigitChar n1 && isDigitChar n2 &&
    isDigitChar s1 && isDigitChar s2 &&
    decide (1 ≤ num2 m1 m2) && decide (num2 m1 m2 ≤ 12) &&
    decide (1 ≤ num2 d1 d2) && decide (num2 d1 d2 ≤ daysIn (num2 m1 m2) (num4 y1 y2 y3 y4)) &&
    decide (num2 h1 h2 ≤ 23) && decide (num2 n1 n2 ≤ 59) && decide (num2 s1 s2 ≤ 59) &&
    (match rest with
     | [] => true
     | sep :: c :: r =>
       (sep == '.' || sep == ',') && isDigitChar c && ((c :: r).dropWhile isDigitChar).isEmpty
     | _ => false)
  | _ => false

/-- Case-insensitive comparison with a literal (strconv's special values). -/
def eqFold (l : List Char) (s : String) : Bool := l.map Char.toLower == s.data

/-- strconv's `special`: inf or infinity with an optional sign, or an
unsigned nan, all case-insensitive, consuming the whole string. -/
def parseFloatSpecial (l : List Char) : Bool :=
  match l with
  | '+' :: r => eqFold r "inf" || eqFold r "infinity"
  | '-' :: r => eqFold r "inf" || eqFold r "infinity"
  | r => eqFold r "inf" || eqFold r "infinity" || eqFold r "nan"

/-- The scanning loop of strconv's `underscoreOK`: an underscore may only
sit between digits (of the current base) or right after the base prefix. -/
def underscoreOKLoop : List Char → Bool → Char → Bool
  | [], _, saw => saw != '_'
  | c :: rest, hex, saw =>
    if (!hex && isDigitChar c) || (hex && isHexChar c) then underscoreOKLoop rest hex '0'
    else if c == '_' then saw == '0' && underscoreOKLoop rest hex '_'
    else saw != '_' && underscoreOKLoop rest hex '!'

/-- strconv's `underscoreOK`. -/
def underscoreOK (l : List Char) : Bool :=
  let l1 := match l with
    | '+' :: r => r
    | '-' :: r => r
    | r => r
  match l1 with
  | '0' :: x :: rest =>
    if x == 'x' || x == 'X' then underscoreOKLoop rest true '0'
    else underscoreOKLoop l1 false '^'
  | _ => underscoreOKLoop l1 false '^'

/-- Value of a run of decimal digits, skipping underscores. -/
def decDigitsVal (l : List Char) : Nat :=
  l.foldl (fun n c => if c == '_' then n else 10 * n + (c.toNat - 48)) 0

/-- Value of one hex digit. -/
def hexDigitVal (c : Char) : Nat :=
  if isDigitChar c then c.toNat - 48
  else if 'a' ≤ c && c ≤ 'f' then c.toNat - 87
  else c.toNat - 55

/-- Value of a run of hex digits, skipping underscores. -/
def hexDigitsVal (l : List Char) : Nat :=
  l.foldl (fun n c => if c == '_' then n else 16 * n + hexDigitVal c) 0

/-- The exponent suffix of strconv's `readFloat` (decimal p- or
e-exponent): an optional sign, then digits (the first character after the
sign must be a digit; underscores may follow), consuming the rest of the
string.  Returns the signed exponent value, or none. -/
def readExponent (l : List Char) : Option Int :=
  let sgn : Int := match l with
    | '-' :: _ => -1
    | _ => 1
  let r := match l with
    | '+' :: r => r
    | '-' :: r => r
    | r => r
  match r with
  | c :: _ =>
    if isDigitChar c then
      if (r.dropWhile (fun c2 => isDigitChar c2 || c2 == '_')).isEmpty then
        some (sgn * (decDigitsVal (r.takeWhile (fun c2 => isDigitChar c2 || c2 == '_')) : Int))
      else none
    else none
  | [] => none

/-- The decimal branch of strconv's `readFloat` (no sign, no hex prefix):
an integer part and an optional fractional part (digits and underscores, at
least one digit overall), an optional e-exponent, consuming the whole
string.  Returns the exact value. -/
def readFloatDec (l : List Char) : Option Rat :=
  let isMantChar : Char → Bool := fun c => isDigitChar c || c == '_'
  let ip := l.takeWhile isMantChar
  let r1 := l.dropWhile isMantChar
  let fp := match r1 with
    | '.' :: r2 => r2.takeWhile isMantChar
    | _ => []
  let rest := match r1 with
    | '.' :: r2 => r2.dropWhile isMantChar
    | _ => r1
  if !(ip.any isDigitChar || fp.any isDigitChar) then none
  else
    let mant : Rat := (decDigitsVal (ip ++ fp) : Rat)
    let fcount : Nat := (fp.filter isDigitChar).length
    match rest with
    | [] => some (mant / 10 ^ fcount)
    | e :: r2 =>
      if e == 'e' || e == 'E' then
        match readExponent r2 with
        | some ex => some (mant * (10 : Rat) ^ (ex - (fcount : Int)))
        | none => none
      else none

/-- The hex branch of strconv's `readFloat`, after the 0x prefix: a hex
mantissa with an optional dot (at least one hex digit), then a mandatory
p-exponent in decimal, consuming the whole string.  Returns the exact
value. -/
def readFloatHex (l : List Char) : Option Rat :=
  let isMantChar : Char → Bool := fun c => isHexChar c || c == '_'
  let ip := l.takeWhile isMantChar
  let r1 := l.dropWhile isMantChar
  let fp := match r1 with
    | '.' :: r2 => r2.takeWhile isMantChar
    | _ => []
  let rest := match r1 with
    | '.' :: r2 => r2.dropWhile isMantChar
    | _ => r1
  if !(ip.any isHexChar || fp.any isHexChar) then none
  else
    let mant : Rat := (hexDigitsVal (ip ++ fp) : Rat)
    let fcount : Nat := (fp.filter isHexChar).length
    match rest with
    | p :: r2 =>
      if p == 'p' || p == 'P' then
        match readExponent r2 with
        | some ex => some (mant / 16 ^ fcount * (2 : Rat) ^ ex)
        | none => none
      else none
    | [] => none

/-- Whether an exact value survives conversion to a 64-bit double without a
range error: zero, or above the underflow-to-zero boundary and below the
overflow-to-infinity boundary of round-to-nearest-even. -/
def floatInRange (q : Rat) : Bool :=
  q == 0 ||
  (decide (|q| * 2 ^ (1075 : Nat) > 1) && decide (|q| < 2 ^ (1024 : Nat) - 2 ^ (970 : Nat)))

/-- Success of Go's `strconv.ParseFloat(s, 64)`: a special value, or a
well-formed decimal or hex float whose underscores are legal and whose
value causes no range error. -/
def parseFloatOk (l : List Char) : Bool :=
  parseFloatSpecial l ||
  (let body := match l with
    | '+' :: r => r
    | '-' :: r => r
    | r => r
   let vOpt := match body with
    | '0' :: x :: rest =>
      if x == 'x' || x == 'X' then readFloatHex rest else readFloatDec body
    | _ => readFloatDec body
   match vOpt with
   | some v => (!l.contains '_' || underscoreOK l) && floatInRange v
   | none => false)

/-! ### `inferStringFormat` (type_inference.go)

The Go function ranges over the `typePatterns` map and returns the first
matching format; Go map iteration order is unspecified, so the embedding
takes the iteration order as a parameter ranging over the permutations of
the pattern list.  `typePatterns` below lists the patterns in the order of
the map literal in `NewTypeInferrer`, which is also the order the
specification document states. -/

/-- The pattern table built by `NewTypeInferrer`, in source-literal order. -/
def typePatterns : List (String × (List Char → Bool)) :=
  [("uuid", uuidMatch), ("email", emailMatch), ("uri", uriMatch), ("date", dateMatch),
   ("time", timeMatch), ("datetime", datetimeMatch), ("ipv4", ipv4Match), ("ipv6", ipv6Match)]

/-- The fallback chain of `inferStringFormat` after the pattern loop:
RFC3339 parse, then plain-date parse, then numeric-string parse, else the
empty format. -/
def fallbackFormat (s : String) : String :=
  if rfc3339Parses s.data then "date-time"
  else if dateLayoutParses '-' s.data then "date"
  else if parseFloatOk s.data then "numeric"
  else ""

/-- `inferStringFormat` with the map iteration order made explicit: the
first pattern of `order` that matches wins, else the fallback chain. -/
def inferStringFormatOrd (order : List (String × (List Char → Bool))) (s : String) : String :=
  match order.find? (fun p => p.2 s.data) with
  | some p => p.1
  | none => fallbackFormat s

/-- `TypeInferrer.inferStringFormat`, iterating the patterns in
source-literal order (the theorem for claim C1 shows every iteration order
gives the same result). -/
def inferStringFormat (s : String) : String := inferStringFormatOrd typePatterns s

/-! ### Schema field updates (Go struct field assignments) -/

/-- Assign the `Type` field. -/
def Schema.setType : Schema → String → Schema
  | .mk _ f p i r e x n, t => .mk t f p i r e x n

/-- Assign the `Format` field. -/
def Schema.setFormat : Schema → String → Schema
  | .mk t _ p i r e x n, f => .mk t f p i r e x n

/-- Assign the `Enum` field. -/
def Schema.setEnum : Schema → List Val → Schema
  | .mk t f p i r _ x n, e => .mk t f p i r e x n

/-- Assign the `Items` field. -/
def Schema.setItems : Schema → Option Schema → Schema
  | .mk t f p _ r e x n, i => .mk t f p i r e x n

/-- Assign the `Nullable` field. -/
def Schema.setNullable : Schema → Bool → Schema
  | .mk t f p i r e x _, n => .mk t f p i r e x n

/-! ### The TypeInferrer (type_inference.go)

The mutable `samples` map is the state; every Go method that can mutate it
takes and returns a `TypeInferrer`.  A map entry distinguishes "absent key"
(`none`) from a stored list, exactly as the Go two-result map read does. -/

/-- The `TypeInferrer` struct: the samples map and the sample cap (the
pattern table is global here; see `typePatterns`). -/
structure TypeInferrer where
  samples : String → Option (List Val)
  maxSamples : Nat

/-- `NewTypeInferrer`: clamps a non-positive cap to 10 and starts with an
empty samples map. -/
def NewTypeInferrer (maxSamples : Int) : TypeInferrer :=
  { samples := fun _ => none
    maxSamples := if maxSamples ≤ 0 then 10 else maxSamples.toNat }

/-- `TypeInferrer.AddSample`: skip nulls; if the path already holds at
least `maxSamples` samples do nothing; otherwise append. -/
def TypeInferrer.AddSample (t : TypeInferrer) (path : String) (value : Val) : TypeInferrer :=
  match value with
  | .vnull => t
  | _ =>
    match t.samples path with
    | some samples =>
      if t.maxSamples ≤ samples.length then t
      else { t with samples := fun p => if p == path then some (samples ++ [value]) else t.samples p }
    | none => { t with samples := fun p => if p == path then some [value] else t.samples p }

/-- `TypeInferrer.ResetSamples`. -/
def TypeInferrer.ResetSamples (t : TypeInferrer) : TypeInferrer :=
  { t with samples := fun _ => none }

/-- The Go integrality test `v == float64(int64(v))`: the value is an
integer and lies in the int64 range [-2^63, 2^63).  Inside the range the
int64 conversion and the conversion back to float64 are both exact, so
the round trip succeeds exactly for integral values; outside the range
(for example 1e19) no int64 equals the value and the test fails. -/
def int64RoundTrips (q : Rat) : Bool :=
  q.den == 1 && (-9223372036854775808 ≤ q.num && q.num < 9223372036854775808)

mutual

/-- `TypeInferrer.inferType`: the schema of a single decoded JSON value.
The string case applies `inferStringFormat` (pattern order irrelevant, see
the claim C1 theorem) and keeps the value as example when shorter than 50
bytes; the number case is integer exactly when the int64 round trip
succeeds (integral and in the int64 range). -/
def inferType : Val → Schema
  | .vobj fields => Schema.mk "object" "" (inferTypeFields fields) none [] [] none false
  | .varr items =>
    match items with
    | [] => Schema.mk "array" "" [] none [] [] none false
    | v :: _ => Schema.mk "array" "" [] (some (inferType v)) [] [] none false
  | .vstr s =>
    Schema.mk "string" (inferStringFormat s) [] none [] []
      (if s.utf8ByteSize < 50 then some (.vstr s) else none) false
  | .vnum q =>
    if int64RoundTrips q then
      Schema.mk "integer" "int64" [] none [] [] (some (.vnum q)) false
    else Schema.mk "number" "double" [] none [] [] (some (.vnum q)) false
  | .vbool b => Schema.mk "boolean" "" [] none [] [] (some (.vbool b)) false
  | .vnull => Schema.mk "null" "" [] none [] [] none false

/-- Property-wise `inferType` over an object's fields. -/
def inferTypeFields : List (String × Val) → List (String × Schema)
  | [] => []
  | (k, v) :: rest => (k, inferType v) :: inferTypeFields rest

end

/-! ### Sample tallies used by `handleMixedTypes` -/

/-- Count of nil samples. -/
def nullCountOf (samples : List Val) : Nat :=
  samples.countP (fun s => match s with | .vnull => true | _ => false)

/-- Count of string samples. -/
def stringCountOf (samples : List Val) : Nat :=
  samples.countP (fun s => match s with | .vstr _ => true | _ => false)

/-- Count of float64 samples. -/
def numberCountOf (samples : List Val) : Nat :=
  samples.countP (fun s => match s with | .vnum _ => true | _ => false)

/-- Count of float64 samples passing the int64 round-trip test. -/
def intCountOf (samples : List Val) : Nat :=
  samples.countP (fun s => match s with | .vnum q => int64RoundTrips q | _ => false)

/-- Count of bool samples. -/
def boolCountOf (samples : List Val) : Nat :=
  samples.countP (fun s => match s with | .vbool _ => true | _ => false)

/-- Count of object samples. -/
def objectCountOf (samples : List Val) : Nat :=
  samples.countP (fun s => match s with | .vobj _ => true | _ => false)

/-- Count of array samples. -/
def arrayCountOf (samples : List Val) : Nat :=
  samples.countP (fun s => match s with | .varr _ => true | _ => false)

/-- The majority-selection chain of `handleMixedTypes`: the successive
strict-greater updates of `maxCount`/`dominantType`, with the all-integers
refinement inside the number branch. -/
def dominantOf (samples : List Val) : Nat × String :=
  let p0 : Nat × String := (0, "")
  let p1 := if p0.1 < stringCountOf samples then (stringCountOf samples, "string") else p0
  let p2 := if p1.1 < numberCountOf samples then
      (numberCountOf samples,
       if intCountOf samples = numberCountOf samples then "integer" else "number")
    else p1
  let p3 := if p2.1 < boolCountOf samples then (boolCountOf samples, "boolean") else p2
  let p4 := if p3.1 < objectCountOf samples then (objectCountOf samples, "object") else p3
  let p5 := if p4.1 < arrayCountOf samples then (arrayCountOf samples, "array") else p4
  p5

/-- The representative-string format scan of `handleMixedTypes`: the first
string sample whose detected format is nonempty. -/
def firstStringFormat : List Val → String
  | [] => ""
  | .vstr s :: rest =>
    let f := inferStringFormat s
    if f ≠ "" then f else firstStringFormat rest
  | _ :: rest => firstStringFormat rest

/-! ### Pure sample helpers for object/array refinement -/

/-- Occurrences of a property name across the object samples (the
`propCounts` tally of `inferObjectProperties`). -/
def propCountOf (samples : List Val) (name : String) : Nat :=
  samples.foldl
    (fun n s => match s with
      | .vobj fields => n + fields.countP (fun f => f.1 == name)
      | _ => n) 0

/-- All property names of the object samples, in order of appearance. -/
def objKeysOf (samples : List Val) : List String :=
  samples.foldl
    (fun acc s => match s with
      | .vobj fields => acc ++ fields.map Prod.fst
      | _ => acc) []

/-- Insertion-ordered distinct members of a string list (models the key
set of a Go map built by repeated insertion; iteration order of the Go map
is unspecified, membership is what the theorems use). -/
def dedupStr (l : List String) : List String :=
  l.foldl (fun acc s => if s ∈ acc then acc else acc ++ [s]) []

/-- Phase one of `inferObjectProperties`: for every object sample and every
property, `AddSample` the property value under the derived sub-path. -/
def addPropSamples (t : TypeInferrer) (path : String) (samples : List Val) : TypeInferrer :=
  samples.foldl
    (fun acc s => match s with
      | .vobj fields =>
        fields.foldl (fun acc2 kv => acc2.AddSample (path ++ "." ++ kv.1) kv.2) acc
      | _ => acc) t

/-- The item-collection loop of `enhanceArraySchema`: append items of one
array, stopping once the accumulated list reaches the cap (the element is
appended before the check, as in the Go loop). -/
def collectInner (acc : List Val) (items : List Val) (maxS : Nat) : List Val :=
  match items with
  | [] => acc
  | i :: rest =>
    let acc2 := acc ++ [i]
    if maxS ≤ acc2.length then acc2 else collectInner acc2 rest maxS

/-- One step of the item-collection fold: arrays contribute their items
(capped), other samples contribute nothing. -/
def collectStep (maxS : Nat) (acc : List Val) (s : Val) : List Val :=
  match s with
  | .varr items => collectInner acc items maxS
  | _ => acc

/-- All items collected by `enhanceArraySchema` across the array samples
(the inner break only stops the current array's loop). -/
def collectArrayItems (samples : List Val) (maxS : Nat) : List Val :=
  samples.foldl (collectStep maxS) []

/-! ### Size bookkeeping for the termination of `enhanceSchema` -/

theorem sizeOf_val_pos (v : Val) : 1 ≤ sizeOf v := by
  cases v <;> simp <;> omega

theorem sizeOf_valList_pos (l : List Val) : 1 ≤ sizeOf l := by
  cases l <;> simp <;> omega

theorem sizeOf_valList_append (l : List Val) (x : Val) :
    sizeOf (l ++ [x]) = sizeOf l + 1 + sizeOf x := by
  induction l with
  | nil => simp; omega
  | cons a as ih => simp [ih]; omega

theorem collectInner_size (items : List Val) (acc : List Val) (m : Nat) :
    sizeOf (collectInner acc items m) + 1 ≤ sizeOf acc + sizeOf items := by
  induction items generalizing acc with
  | nil => simp [collectInner]
  | cons i rest ih =>
    simp only [collectInner]
    have hrest := sizeOf_valList_pos rest
    have happ := sizeOf_valList_append acc i
    by_cases h : m ≤ (acc ++ [i]).length
    · simp only [h, if_pos]
      simp
      omega
    · simp only [h, if_neg, not_false_iff]
      have := ih (acc ++ [i])
      simp at this ⊢
      omega

theorem collectStep_size (m : Nat) (acc : List Val) (s : Val) :
    sizeOf (collectStep m acc s) + 1 ≤ sizeOf acc + sizeOf s ∨ collectStep m acc s = acc := by
  cases s with
  | varr items =>
    left
    have := collectInner_size items acc m
    simp [collectStep]
    omega
  | vnull => right; rfl
  | vbool _ => right; rfl
  | vnum _ => right; rfl
  | vstr _ => right; rfl
  | vobj _ => right; rfl

theorem collectFold_size (samples : List Val) (acc : List Val) (m : Nat) :
    sizeOf (samples.foldl (collectStep m) acc) + 2 ≤ sizeOf acc + sizeOf samples ∨
    samples.foldl (collectStep m) acc = acc := by
  induction samples generalizing acc with
  | nil => right; rfl
  | cons s rest ih =>
    rw [List.foldl_cons]
    have hs := sizeOf_val_pos s
    have hrest := sizeOf_valList_pos rest
    have hcons : sizeOf (s :: rest) = 1 + sizeOf s + sizeOf rest := by simp
    rcases ih (collectStep m acc s) with hL | hR
    · left
      rcases collectStep_size m acc s with h1 | h1
      · omega
      · rw [h1] at hL ⊢
        omega
    · rw [hR]
      rcases collectStep_size m acc s with h1 | h1
      · left
        omega
      · right
        exact h1

theorem collectArrayItems_size (samples : List Val) (m : Nat)
    (h : collectArrayItems samples m ≠ []) :
    sizeOf (collectArrayItems samples m) < sizeOf samples := by
  unfold collectArrayItems at *
  rcases collectFold_size samples [] m with hL | hR
  · simp at hL
    omega
  · exact absurd hR h

/-! ### Schema enhancement (`enhanceSchema` and friends) -/

/-- The string-extraction step of `enhanceStringSchema`'s loop over the
samples: keep the payload of string samples, drop everything else. -/
def strOfVal (s : Val) : Option String :=
  match s with | .vstr v => some v | _ => none

/-- `enhanceStringSchema`: enum detection (2 to 10 samples, at most 5
distinct rendered strings, none longer than 30 bytes, strictly fewer
distinct values than samples), then format detection on the first sample
when no format is set yet.  The Go code collects the distinct values in a
map and emits the enum by ranging over it, so the emitted ORDER is
unspecified; `dedupStr` realizes one possible iteration order
(first occurrence), and the claim theorems use only the membership and
distinctness of the emitted enum, never this order. -/
def enhanceStringSchema (schema : Schema) (samples : List Val) : Schema :=
  let schema1 :=
    if 2 ≤ samples.length ∧ samples.length ≤ 10 then
      let strSamples := samples.filterMap strOfVal
      let uniqueValues := dedupStr strSamples
      let allShort := strSamples.all (fun s => s.utf8ByteSize ≤ 30)
      if uniqueValues.length ≤ 5 ∧ allShort = true ∧ uniqueValues.length < strSamples.length then
        schema.setEnum (uniqueValues.map Val.vstr)
      else schema
    else schema
  if schema1.format = "" ∧ 0 < samples.length then
    match samples.head? with
    | some (.vstr str) => schema1.setFormat (inferStringFormat str)
    | _ => schema1
  else schema1

/-- One step of the min/max/all-integers fold of `enhanceNumberSchema`. -/
def enhanceNumStep (acc : Rat × Rat × Bool) (s : Val) : Rat × Rat × Bool :=
  match s with
  | .vnum q => (min acc.1 q, max acc.2.1 q, acc.2.2 && int64RoundTrips q)
  | _ => acc

/-- `enhanceNumberSchema`: with at least 3 samples, compute min/max and
the int64 round-trip test over the numeric samples (min/max start at 0
when the first sample is not numeric, as in the Go code) and set integer/int32,
integer/int64 or number/double accordingly. -/
def enhanceNumberSchema (schema : Schema) (samples : List Val) : Schema :=
  if 3 ≤ samples.length then
    let init : Rat × Rat × Bool :=
      match samples.head? with
      | some (.vnum q) => (q, q, int64RoundTrips q)
      | _ => (0, 0, true)
    let res := samples.tail.foldl enhanceNumStep init
    if res.2.2 then
      (schema.setType "integer").setFormat (if 0 ≤ res.1 ∧ res.2.1 ≤ 255 then "int32" else "int64")
    else (schema.setType "number").setFormat "double"
  else schema

mutual

/-- `enhanceSchema`: dispatch on the schema type. -/
def enhanceSchema (maxS : Nat) (schema : Schema) (samples : List Val) : Schema :=
  if schema.type = "string" then enhanceStringSchema schema samples
  else if schema.type = "integer" ∨ schema.type = "number" then
    enhanceNumberSchema schema samples
  else if schema.type = "array" then enhanceArraySchema maxS schema samples
  else schema
termination_by (sizeOf samples, 1)
decreasing_by
  simp_wf
  exact Prod.Lex.right _ (by omega)

/-- `enhanceArraySchema`: collect up to `maxS` items across the array
samples; if the items share one inferred type, recursively enhance the
first item's schema with the items as samples, otherwise force the item
schema to string/any. -/
def enhanceArraySchema (maxS : Nat) (schema : Schema) (samples : List Val) : Schema :=
  match hAll : collectArrayItems samples maxS with
  | [] => schema
  | i0 :: restItems =>
    let itemSchema := inferType i0
    let sameType := restItems.all (fun it => (inferType it).type == itemSchema.type)
    let itemSchema2 :=
      if sameType then enhanceSchema maxS itemSchema (i0 :: restItems)
      else (itemSchema.setType "string").setFormat "any"
    schema.setItems (some itemSchema2)
termination_by (sizeOf samples, 0)
decreasing_by
  simp_wf
  have := collectArrayItems_size samples maxS (by rw [hAll]; simp)
  rw [hAll] at this
  exact Prod.Lex.left _ _ this

end

/-! ### `InferSchema`, `handleMixedTypes`, `inferObjectProperties`,
`inferArrayItems` (type_inference.go)

These four methods recurse through the mutable samples map: refining an
object property or an array item first adds derived sub-path samples and
then calls `InferSchema` on the sub-path.  The recursion terminates in Go
because every added sub-sample is a strict subterm of an existing sample,
but the bound is data-dependent, so the embedding indexes the family by an
explicit recursion-depth bound `fuel`: each nested `InferSchema` call uses
one unit.  A call with exhausted fuel yields `none` and leaves the state
unchanged; all theorems below hold for every fuel value, and concrete
evaluations use a fuel that is visibly larger than the value depth. -/

mutual

/-- `TypeInferrer.InferSchema`: nothing without samples; with samples of
one shared inferred type, enhance the first sample's schema; with mixed
types, `handleMixedTypes`. -/
def InferSchemaF : Nat → TypeInferrer → String → Option Schema × TypeInferrer
  | 0, t, _ => (none, t)
  | fuel + 1, t, path =>
    match t.samples path with
    | none => (none, t)
    | some samples =>
      match samples with
      | [] => (none, t)
      | s0 :: rest =>
        let schema := inferType s0
        if rest.all (fun s => (inferType s).type == schema.type) then
          (some (enhanceSchema t.maxSamples schema (s0 :: rest)), t)
        else
          let r := handleMixedTypesF fuel t path
          (some r.1, r.2)
termination_by fuel _ _ => (4 * fuel, 0)
decreasing_by
  simp_wf
  exact Prod.Lex.left _ _ (by omega)

/-- `TypeInferrer.handleMixedTypes`: tally the sample kinds, set nullable
when nulls and non-nulls coexist, pick the dominant kind, adopt it when its
share exceeds 0.7 (recursing into object properties, array items, or
scanning for a representative string format), else fall back to
string/any. -/
def handleMixedTypesF (fuel : Nat) (t : TypeInferrer) (path : String) : Schema × TypeInferrer :=
  let samples := (t.samples path).getD []
  let total := samples.length
  let nullable : Bool := decide (0 < nullCountOf samples ∧ nullCountOf samples < total)
  let dom := dominantOf samples
  if 7 * total < 10 * dom.1 then
    if dom.2 = "object" then
      let r := inferObjectPropertiesF fuel t path
      (Schema.mk "object" "" r.1 none [] [] none nullable, r.2)
    else if dom.2 = "array" then
      let r := inferArrayItemsF fuel t path
      (Schema.mk "array" "" [] r.1 [] [] none nullable, r.2)
    else if dom.2 = "string" then
      (Schema.mk "string" (firstStringFormat samples) [] none [] [] none nullable, t)
    else
      (Schema.mk dom.2 "" [] none [] [] none nullable, t)
  else
    (Schema.mk "string" "any" [] none [] [] none nullable, t)
termination_by (4 * fuel + 3, 0)
decreasing_by
  all_goals simp_wf
  all_goals exact Prod.Lex.left _ _ (by omega)

/-- `TypeInferrer.inferObjectProperties`: add every property value of every
object sample as a sub-path sample, then infer a schema per distinct
property name, marking it nullable when the property is absent from some
object sample. -/
def inferObjectPropertiesF (fuel : Nat) (t : TypeInferrer) (path : String) :
    List (String × Schema) × TypeInferrer :=
  let samples := (t.samples path).getD []
  let t1 := addPropSamples t path samples
  inferPropsLoopF fuel path samples (objectCountOf samples) (dedupStr (objKeysOf samples)) t1
termination_by (4 * fuel + 2, 0)
decreasing_by
  simp_wf
  exact Prod.Lex.left _ _ (by omega)

/-- The per-property loop of `inferObjectProperties` (the range over the
`propCounts` keys): infer each property sub-path's schema, adjust
nullability from the presence count, and collect the properties map. -/
def inferPropsLoopF (fuel : Nat) (path : String) (samples : List Val) (objCount : Nat) :
    List String → TypeInferrer → List (String × Schema) × TypeInferrer
  | [], t => ([], t)
  | name :: restKeys, t =>
    let r := InferSchemaF fuel t (path ++ "." ++ name)
    let rTail := inferPropsLoopF fuel path samples objCount restKeys r.2
    match r.1 with
    | some s =>
      let s2 := if propCountOf samples name < objCount then s.setNullable true else s
      ((name, s2) :: rTail.1, rTail.2)
    | none => (rTail.1, rTail.2)
termination_by keys t => (4 * fuel + 1, keys.length)
decreasing_by
  all_goals simp_wf
  · exact Prod.Lex.left _ _ (by omega)
  · exact Prod.Lex.right _ (by omega)

/-- `TypeInferrer.inferArrayItems`: add every item of every array sample as
a `path[]` sample; if any item exists, infer the `path[]` schema. -/
def inferArrayItemsF (fuel : Nat) (t : TypeInferrer) (path : String) :
    Option Schema × TypeInferrer :=
  let samples := (t.samples path).getD []
  let t1 := samples.foldl
    (fun acc s => match s with
      | .varr items => items.foldl (fun a i => a.AddSample (path ++ "[]") i) acc
      | _ => acc) t
  if samples.any (fun s => match s with | .varr items => !items.isEmpty | _ => false) then
    InferSchemaF fuel t1 (path ++ "[]")
  else (none, t1)
termination_by (4 * fuel + 2, 0)
decreasing_by
  simp_wf
  exact Prod.Lex.left _ _ (by omega)

end

/-- The state invariant of the sample map (claim C9): the cap is at least
one, and every stored sample list respects the cap and holds no nil
values.  (Insertion order and duplicates are covered by the append-shape
statement of the claim theorem.) -/
def SampleInv (t : TypeInferrer) : Prop :=
  1 ≤ t.maxSamples ∧
  ∀ p l, t.samples p = some l → l.length ≤ t.maxSamples ∧ Val.vnull ∉ l

/-! ### `inferSchema` and `isDateTime` (pkg/parser/parser.go) -/

/-- `isDateTime`: tries the RFC3339, `2006-01-02T15:04:05`, `2006-01-02`
and `2006/01/02` layouts in order. -/
def isDateTime (l : List Char) : Bool :=
  rfc3339Parses l || dtNoZoneParses l || dateLayoutParses '-' l || dateLayoutParses '/' l

mutual

/-- `inferSchema` of parser.go: the per-transaction single-value schema
(null is nullable here; an empty array defaults its items to string; a
numeric value is integer exactly when its int64 round trip succeeds). -/
def inferSchemaValue : Val → Schema
  | .vnull => Schema.mk "null" "" [] none [] [] none true
  | .vbool b => Schema.mk "boolean" "" [] none [] [] (some (.vbool b)) false
  | .vnum q =>
    if int64RoundTrips q then
      Schema.mk "integer" "int64" [] none [] [] (some (.vnum q)) false
    else Schema.mk "number" "double" [] none [] [] (some (.vnum q)) false
  | .vstr s =>
    if isDateTime s.data then
      Schema.mk "string" "date-time" [] none [] [] (some (.vstr s)) false
    else Schema.mk "string" "" [] none [] [] (some (.vstr s)) false
  | .varr items =>
    match items with
    | [] =>
      Schema.mk "array" "" [] (some (Schema.mk "string" "" [] none [] [] none false)) [] [] none false
    | v :: _ => Schema.mk "array" "" [] (some (inferSchemaValue v)) [] [] none false
  | .vobj fields => Schema.mk "object" "" (inferSchemaValueFields fields) none [] [] none false

/-- Property-wise `inferSchema` over an object's fields. -/
def inferSchemaValueFields : List (String × Val) → List (String × Schema)
  | [] => []
  | (k, v) :: rest => (k, inferSchemaValue v) :: inferSchemaValueFields rest

end

/-! ### Schema merging (pkg/parser/schema_merger.go) -/

/-- Assign the `Properties` field. -/
def Schema.setProperties : Schema → List (String × Schema) → Schema
  | .mk t f _ i r e x n, p => .mk t f p i r e x n

/-- Assign the `Required` field. -/
def Schema.setRequired : Schema → List String → Schema
  | .mk t f p i _ e x n, r => .mk t f p i r e x n

/-- Assign the `Example` field. -/
def Schema.setExample : Schema → Option Val → Schema
  | .mk t f p i r e _ n, x => .mk t f p i r e x n

/-- Insertion-ordered distinct members of a value list (`mergeEnums`
builds a `map[interface{}]bool` and returns its key set; membership is what
the theorems use, the emitted order being unspecified in Go). -/
def dedupVal (l : List Val) : List Val :=
  l.foldl (fun acc v => if v ∈ acc then acc else acc ++ [v]) []

/-- `mergeEnums`: an empty side returns the other side unchanged,
otherwise the deduplicated union. -/
def mergeEnums (a b : List Val) : List Val :=
  if a.length = 0 then b
  else if b.length = 0 then a
  else dedupVal (a ++ b)

/-- `mergeRequired`: an empty side returns the other side unchanged,
otherwise the deduplicated union. -/
def mergeRequired (a b : List String) : List String :=
  if a.length = 0 then b
  else if b.length = 0 then a
  else dedupStr (a ++ b)

theorem lookup_mem_schema (l : List (String × Schema)) (k : String) (v : Schema)
    (h : l.lookup k = some v) : (k, v) ∈ l := by
  induction l with
  | nil => simp [List.lookup] at h
  | cons p rest ih =>
    obtain ⟨k1, v1⟩ := p
    simp only [List.lookup] at h
    by_cases hk : k == k1
    · simp [hk] at h
      subst h
      have : k = k1 := by simpa using hk
      simp [this]
    · simp only [hk] at h
      simp at hk
      exact List.mem_cons_of_mem _ (ih h)

theorem sizeOf_lookup_lt (l : List (String × Schema)) (k : String) (v : Schema)
    (h : l.lookup k = some v) : sizeOf v < sizeOf l := by
  have hm := lookup_mem_schema l k v h
  have h1 : sizeOf (k, v) < sizeOf l := List.sizeOf_lt_of_mem hm
  have h2 : sizeOf v < sizeOf (k, v) := by simp
  omega

theorem sizeOf_schema_properties (a : Schema) : sizeOf a.properties < sizeOf a := by
  cases a
  simp [Schema.properties]
  omega

theorem sizeOf_schema_items (a : Schema) (i : Schema) (h : a.items = some i) :
    sizeOf i < sizeOf a := by
  cases a
  simp [Schema.items] at h
  subst h
  simp
  omega

theorem sizeOf_propsCons (k : String) (sa : Schema) (rest : List (String × Schema)) :
    sizeOf sa < sizeOf ((k, sa) :: rest) ∧ sizeOf rest < sizeOf ((k, sa) :: rest) := by
  simp
  omega

mutual

/-- `mergeSchema`: escalate distinct nonempty types to object; merge
object properties and required sets, or array item schemas; first-wins
example and format; union enums; or nullability. -/
def mergeSchema (a b : Schema) : Schema :=
  let r0 := a
  let r1 := if a.type ≠ b.type ∧ a.type ≠ "" ∧ b.type ≠ "" then r0.setType "object" else r0
  let r2 :=
    if a.type = "object" then
      (r1.setProperties (mergeObjectProperties a.properties b.properties)).setRequired
        (mergeRequired a.required b.required)
    else if a.type = "array" then
      if b.type = "array" then
        match ha : a.items, hb : b.items with
        | some ia, some ib => r1.setItems (some (mergeSchema ia ib))
        | none, some ib => r1.setItems (some ib)
        | _, _ => r1
      else r1
    else r1
  let r3 := if a.exampleVal = none ∧ b.exampleVal ≠ none then r2.setExample b.exampleVal else r2
  let r4 := r3.setEnum (mergeEnums a.enum b.enum)
  let r5 := if a.format = "" ∧ b.format ≠ "" then r4.setFormat b.format else r4
  r5.setNullable (a.nullable || b.nullable)
termination_by (sizeOf a + sizeOf b, 2)
decreasing_by
  · simp_wf
    have h1 := sizeOf_schema_properties a
    have h2 := sizeOf_schema_properties b
    exact Prod.Lex.left _ _ (by omega)
  · simp_wf
    have h1 := sizeOf_schema_items a ia ha
    have h2 := sizeOf_schema_items b ib hb
    exact Prod.Lex.left _ _ (by omega)

/-- `mergeObjectProperties`: union of the two property maps, recursively
merging keys present in both (Go returns nil when both maps are nil, which
the list model identifies with the empty result; the Go result is a map,
and this list realizes it in first-map-then-second order). -/
def mergeObjectProperties (aProps bProps : List (String × Schema)) : List (String × Schema) :=
  mergePropsA aProps bProps ++ bProps.filter (fun q => (aProps.lookup q.1).isNone)
termination_by (sizeOf aProps + sizeOf bProps, 1)
decreasing_by
  simp_wf
  exact Prod.Lex.right _ (by omega)

/-- The part of `mergeObjectProperties` that walks the first map: each
entry is merged with the same-named entry of the second map when that
exists. -/
def mergePropsA : List (String × Schema) → List (String × Schema) → List (String × Schema)
  | [], _ => []
  | (k, sa) :: rest, bProps =>
    (match hb : bProps.lookup k with
     | some sb => (k, mergeSchema sa sb)
     | none => (k, sa)) :: mergePropsA rest bProps
termination_by aProps bProps => (sizeOf aProps + sizeOf bProps, 0)
decreasing_by
  · simp_wf
    have h1 := sizeOf_lookup_lt bProps k sb hb
    have h2 := (sizeOf_propsCons k sa rest).1
    exact Prod.Lex.left _ _ (by omega)
  · simp_wf
    have h2 := (sizeOf_propsCons k sa rest).2
    exact Prod.Lex.left _ _ (by omega)

end

mutual

/-- `AreSchemasEqual`: structural comparison of type, format, nullable,
object properties (by lookup), array items and enum list (the enum
comparison is `reflect.DeepEqual`, order-sensitive). -/
def AreSchemasEqual (a b : Schema) : Bool :=
  if a.type = b.type ∧ a.format = b.format ∧ a.nullable = b.nullable then
    (if a.type = "object" ∧ b.type = "object" then
      decide (a.properties.length = b.properties.length) && propsEqual a.properties b.properties
    else true) &&
    (if a.type = "array" ∧ b.type = "array" then
      match ha : a.items, b.items with
      | some ia, some ib => AreSchemasEqual ia ib
      | none, none => true
      | _, _ => false
    else true) &&
    valListBeq a.enum b.enum
  else false
termination_by (sizeOf a, 1)
decreasing_by
  · simp_wf
    have h1 := sizeOf_schema_properties a
    exact Prod.Lex.left _ _ (by omega)
  · simp_wf
    have h1 := sizeOf_schema_items a ia ha
    exact Prod.Lex.left _ _ (by omega)

/-- The property loop of `AreSchemasEqual`: every property of the first
map exists in the second and compares equal. -/
def propsEqual : List (String × Schema) → List (String × Schema) → Bool
  | [], _ => true
  | p :: rest, bProps =>
    (match hb : bProps.lookup p.1 with
     | some pb => AreSchemasEqual p.2 pb
     | none => false) && propsEqual rest bProps
termination_by aProps bProps => (sizeOf aProps, 0)
decreasing_by
  · simp_wf
    have h1 := sizeOf_lookup_lt bProps p.1 pb hb
    have h2 : sizeOf p.2 ≤ sizeOf p := by
      obtain ⟨k, v⟩ := p
      simp
    exact Prod.Lex.left _ _ (by omega)
  · simp_wf
    exact Prod.Lex.left _ _ (by omega)

end

/-! ## Claim theorems -/

/-- The int64 round-trip test succeeds exactly for the values of 64-bit
integers: integral and within [-2^63, 2^63). -/
theorem int64RoundTrips_iff (q : Rat) :
    int64RoundTrips q = true ↔
      ∃ n : Int, -9223372036854775808 ≤ n ∧ n < 9223372036854775808 ∧ q = (n : Rat) := by
  rw [int64RoundTrips]
  simp only [Bool.and_eq_true, beq_iff_eq, decide_eq_true_eq]
  constructor
  · rintro ⟨h1, h2, h3⟩
    exact ⟨q.num, h2, h3, ((Rat.den_eq_one_iff q).mp h1).symm⟩
  · rintro ⟨n, h1, h2, rfl⟩
    refine ⟨Rat.den_intCast n, ?_, ?_⟩
    · rw [Rat.num_intCast]
      exact h1
    · rw [Rat.num_intCast]
      exact h2

/-- C6: single-value numeric inference classifies a value as
integer/int64 exactly when it equals its truncation to a 64-bit integer —
that is, when it is integral AND lies in the int64 range [-2^63, 2^63),
so that the int64 round trip `v == float64(int64(v))` succeeds — and as
number/double otherwise, in both the `TypeInferrer.inferType` float64
case and the parser.go `inferSchema` float64 case; in particular 42 is
integer/int64, 42.5 is number/double, and the integral 1e19, which lies
outside the int64 range, is number/double. -/
theorem C6_numeric_classification_boundary :
    (∀ q : Rat,
      (((inferType (.vnum q)).type = "integer" ∧ (inferType (.vnum q)).format = "int64") ↔
        ∃ n : Int, -9223372036854775808 ≤ n ∧ n < 9223372036854775808 ∧ q = (n : Rat)) ∧
      (((inferType (.vnum q)).type = "number" ∧ (inferType (.vnum q)).format = "double") ↔
        ¬∃ n : Int, -9223372036854775808 ≤ n ∧ n < 9223372036854775808 ∧ q = (n : Rat)) ∧
      (((inferSchemaValue (.vnum q)).type = "integer" ∧
          (inferSchemaValue (.vnum q)).format = "int64") ↔
        ∃ n : Int, -9223372036854775808 ≤ n ∧ n < 9223372036854775808 ∧ q = (n : Rat)) ∧
      (((inferSchemaValue (.vnum q)).type = "number" ∧
          (inferSchemaValue (.vnum q)).format = "double") ↔
        ¬∃ n : Int, -9223372036854775808 ≤ n ∧ n < 9223372036854775808 ∧ q = (n : Rat))) ∧
    (inferType (.vnum 42)).type = "integer" ∧ (inferType (.vnum 42)).format = "int64" ∧
    (inferType (.vnum (85 / 2))).type = "number" ∧
    (inferType (.vnum (85 / 2))).format = "double" ∧
    (inferType (.vnum 10000000000000000000)).type = "number" ∧
    (inferType (.vnum 10000000000000000000)).format = "double" := by
  have hden : (85 / 2 : Rat).den = 2 := by norm_num
  have h42 : int64RoundTrips 42 = true := by decide
  have hhalf : int64RoundTrips (85 / 2 : Rat) = false := by
    rw [int64RoundTrips, hden]
    rfl
  have h19 : int64RoundTrips 10000000000000000000 = false := by decide
  refine ⟨fun q => ?_, ?_, ?_, ?_, ?_, ?_, ?_⟩
  · rw [← int64RoundTrips_iff]
    by_cases h : int64RoundTrips q = true
    · simp [inferType, inferSchemaValue, h, Schema.type, Schema.format]
    · have hf : int64RoundTrips q = false := by simpa using h
      simp [inferType, inferSchemaValue, hf, Schema.type, Schema.format]
  · simp [inferType, h42, Schema.type]
  · simp [inferType, h42, Schema.format]
  · simp [inferType, hhalf, Schema.type]
  · simp [inferType, hhalf, Schema.format]
  · simp [inferType, h19, Schema.type]
  · simp [inferType, h19, Schema.format]

/-! ### Field/update laws for `Schema` (used throughout the claim proofs) -/

@[simp] theorem Schema.type_setType (s : Schema) (v) :
    (Schema.setType s v).type = v := by
  cases s
  rfl

@[simp] theorem Schema.format_setType (s : Schema) (v) :
    (Schema.setType s v).format = s.format := by
  cases s
  rfl

@[simp] theorem Schema.properties_setType (s : Schema) (v) :
    (Schema.setType s v).properties = s.properties := by
  cases s
  rfl

@[simp] theorem Schema.items_setType (s : Schema) (v) :
    (Schema.setType s v).items = s.items := by
  cases s
  rfl

@[simp] theorem Schema.required_setType (s : Schema) (v) :
    (Schema.setType s v).required = s.required := by
  cases s
  rfl

@[simp] theorem Schema.enum_setType (s : Schema) (v) :
    (Schema.setType s v).enum = s.enum := by
  cases s
  rfl

@[simp] theorem Schema.exampleVal_setType (s : Schema) (v) :
    (Schema.setType s v).exampleVal = s.exampleVal := by
  cases s
  rfl

@[simp] theorem Schema.nullable_setType (s : Schema) (v) :
    (Schema.setType s v).nullable = s.nullable := by
  cases s
  rfl

@[simp] theorem Schema.type_setFormat (s : Schema) (v) :
    (Schema.setFormat s v).type = s.type := by
  cases s
  rfl

@[simp] theorem Schema.format_setFormat (s : Schema) (v) :
    (Schema.setFormat s v).format = v := by
  cases s
  rfl

@[simp] theorem Schema.properties_setFormat (s : Schema) (v) :
    (Schema.setFormat s v).properties = s.properties := by
  cases s
  rfl

@[simp] theorem Schema.items_setFormat (s : Schema) (v) :
    (Schema.setFormat s v).items = s.items := by
  cases s
  rfl

@[simp] theorem Schema.required_setFormat (s : Schema) (v) :
    (Schema.setFormat s v).required = s.required := by
  cases s
  rfl

@[simp] theorem Schema.enum_setFormat (s : Schema) (v) :
    (Schema.setFormat s v).enum = s.enum := by
  cases s
  rfl

@[simp] theorem Schema.exampleVal_setFormat (s : Schema) (v) :
    (Schema.setFormat s v).exampleVal = s.exampleVal := by
  cases s
  rfl

@[simp] theorem Schema.nullable_setFormat (s : Schema) (v) :
    (Schema.setFormat s v).nullable = s.nullable := by
  cases s
  rfl

@[simp] theorem Schema.type_setProperties (s : Schema) (v) :
    (Schema.setProperties s v).type = s.type := by
  cases s
  rfl

@[simp] theorem Schema.format_setProperties (s : Schema) (v) :
    (Schema.setProperties s v).format = s.format := by
  cases s
  rfl

@[simp] theorem Schema.properties_setProperties (s : Schema) (v) :
    (Schema.setProperties s v).properties = v := by
  cases s
  rfl

@[simp] theorem Schema.items_setProperties (s : Schema) (v) :
    (Schema.setProperties s v).items = s.items := by
  cases s
  rfl

@[simp] theorem Schema.required_setProperties (s : Schema) (v) :
    (Schema.setProperties s v).required = s.required := by
  cases s
  rfl

@[simp] theorem Schema.enum_setProperties (s : Schema) (v) :
    (Schema.setProperties s v).enum = s.enum := by
  cases s
  rfl

@[simp] theorem Schema.exampleVal_setProperties (s : Schema) (v) :
    (Schema.setProperties s v).exampleVal = s.exampleVal := by
  cases s
  rfl

@[simp] theorem Schema.nullable_setProperties (s : Schema) (v) :
    (Schema.setProperties s v).nullable = s.nullable := by
  cases s
  rfl

@[simp] theorem Schema.type_setItems (s : Schema) (v) :
    (Schema.setItems s v).type = s.type := by
  cases s
  rfl

@[simp] theorem Schema.format_setItems (s : Schema) (v) :
    (Schema.setItems s v).format = s.format := by
  cases s
  rfl

@[simp] theorem Schema.properties_setItems (s : Schema) (v) :
    (Schema.setItems s v).properties = s.properties := by
  cases s
  rfl

@[simp] theorem Schema.items_setItems (s : Schema) (v) :
    (Schema.setItems s v).items = v := by
  cases s
  rfl

@[simp] theorem Schema.required_setItems (s : Schema) (v) :
    (Schema.setItems s v).required = s.required := by
  cases s
  rfl

@[simp] theorem Schema.enum_setItems (s : Schema) (v) :
    (Schema.setItems s v).enum = s.enum := by
  cases s
  rfl

@[simp] theorem Schema.exampleVal_setItems (s : Schema) (v) :
    (Schema.setItems s v).exampleVal = s.exampleVal := by
  cases s
  rfl

@[simp] theorem Schema.nullable_setItems (s : Schema) (v) :
    (Schema.setItems s v).nullable = s.nullable := by
  cases s
  rfl

@[simp] theorem Schema.type_setRequired (s : Schema) (v) :
    (Schema.setRequired s v).type = s.type := by
  cases s
  rfl

@[simp] theorem Schema.format_setRequired (s : Schema) (v) :
    (Schema.setRequired s v).format = s.format := by
  cases s
  rfl

@[simp] theorem Schema.properties_setRequired (s : Schema) (v) :
    (Schema.setRequired s v).properties = s.properties := by
  cases s
  rfl

@[simp] theorem Schema.items_setRequired (s : Schema) (v) :
    (Schema.setRequired s v).items = s.items := by
  cases s
  rfl

@[simp] theorem Schema.required_setRequired (s : Schema) (v) :
    (Schema.setRequired s v).required = v := by
  cases s
  rfl

@[simp] theorem Schema.enum_setRequired (s : Schema) (v) :
    (Schema.setRequired s v).enum = s.enum := by
  cases s
  rfl

@[simp] theorem Schema.exampleVal_setRequired (s : Schema) (v) :
    (Schema.setRequired s v).exampleVal = s.exampleVal := by
  cases s
  rfl

@[simp] theorem Schema.nullable_setRequired (s : Schema) (v) :
    (Schema.setRequired s v).nullable = s.nullable := by
  cases s
  rfl

@[simp] theorem Schema.type_setEnum (s : Schema) (v) :
    (Schema.setEnum s v).type = s.type := by
  cases s
  rfl

@[simp] theorem Schema.format_setEnum (s : Schema) (v) :
    (Schema.setEnum s v).format = s.format := by
  cases s
  rfl

@[simp] theorem Schema.properties_setEnum (s : Schema) (v) :
    (Schema.setEnum s v).properties = s.properties := by
  cases s
  rfl

@[simp] theorem Schema.items_setEnum (s : Schema) (v) :
    (Schema.setEnum s v).items = s.items := by
  cases s
  rfl

@[simp] theorem Schema.required_setEnum (s : Schema) (v) :
    (Schema.setEnum s v).required = s.required := by
  cases s
  rfl

@[simp] theorem Schema.enum_setEnum (s : Schema) (v) :
    (Schema.setEnum s v).enum = v := by
  cases s
  rfl

@[simp] theorem Schema.exampleVal_setEnum (s : Schema) (v) :
    (Schema.setEnum s v).exampleVal = s.exampleVal := by
  cases s
  rfl

@[simp] theorem Schema.nullable_setEnum (s : Schema) (v) :
    (Schema.setEnum s v).nullable = s.nullable := by
  cases s
  rfl

@[simp] theorem Schema.type_setExample (s : Schema) (v) :
    (Schema.setExample s v).type = s.type := by
  cases s
  rfl

@[simp] theorem Schema.format_setExample (s : Schema) (v) :
    (Schema.setExample s v).format = s.format := by
  cases s
  rfl

@[simp] theorem Schema.properties_setExample (s : Schema) (v) :
    (Schema.setExample s v).properties = s.properties := by
  cases s
  rfl

@[simp] theorem Schema.items_setExample (s : Schema) (v) :
    (Schema.setExample s v).items = s.items := by
  cases s
  rfl

@[simp] theorem Schema.required_setExample (s : Schema) (v) :
    (Schema.setExample s v).required = s.required := by
  cases s
  rfl

@[simp] theorem Schema.enum_setExample (s : Schema) (v) :
    (Schema.setExample s v).enum = s.enum := by
  cases s
  rfl

@[simp] theorem Schema.exampleVal_setExample (s : Schema) (v) :
    (Schema.setExample s v).exampleVal = v := by
  cases s
  rfl

@[simp] theorem Schema.nullable_setExample (s : Schema) (v) :
    (Schema.setExample s v).nullable = s.nullable := by
  cases s
  rfl

@[simp] theorem Schema.type_setNullable (s : Schema) (v) :
    (Schema.setNullable s v).type = s.type := by
  cases s
  rfl

@[simp] theorem Schema.format_setNullable (s : Schema) (v) :
    (Schema.setNullable s v).format = s.format := by
  cases s
  rfl

@[simp] theorem Schema.properties_setNullable (s : Schema) (v) :
    (Schema.setNullable s v).properties = s.properties := by
  cases s
  rfl

@[simp] theorem Schema.items_setNullable (s : Schema) (v) :
    (Schema.setNullable s v).items = s.items := by
  cases s
  rfl

@[simp] theorem Schema.required_setNullable (s : Schema) (v) :
    (Schema.setNullable s v).required = s.required := by
  cases s
  rfl

@[simp] theorem Schema.enum_setNullable (s : Schema) (v) :
    (Schema.setNullable s v).enum = s.enum := by
  cases s
  rfl

@[simp] theorem Schema.exampleVal_setNullable (s : Schema) (v) :
    (Schema.setNullable s v).exampleVal = s.exampleVal := by
  cases s
  rfl

@[simp] theorem Schema.nullable_setNullable (s : Schema) (v) :
    (Schema.setNullable s v).nullable = v := by
  cases s
  rfl

theorem dedupVal_mem_aux (l acc : List Val) (x : Val) :
    x ∈ l.foldl (fun acc v => if v ∈ acc then acc else acc ++ [v]) acc ↔ x ∈ acc ∨ x ∈ l := by
  induction l generalizing acc with
  | nil => simp
  | cons v rest ih =>
    rw [List.foldl_cons, ih]
    by_cases hv : v ∈ acc
    · simp only [hv, if_pos, List.mem_cons]
      constructor
      · rintro (h | h)
        · exact Or.inl h
        · exact Or.inr (Or.inr h)
      · rintro (h | h | h)
        · exact Or.inl h
        · subst h
          exact Or.inl hv
        · exact Or.inr h
    · simp only [hv, if_neg, not_false_iff, List.mem_append, List.mem_singleton,
        List.mem_cons, List.not_mem_nil, or_false]
      tauto

theorem dedupVal_mem (l : List Val) (x : Val) : x ∈ dedupVal l ↔ x ∈ l := by
  rw [dedupVal, dedupVal_mem_aux]
  simp

theorem dedupVal_nodup_aux (l acc : List Val) (h : acc.Nodup) :
    (l.foldl (fun acc v => if v ∈ acc then acc else acc ++ [v]) acc).Nodup := by
  induction l generalizing acc with
  | nil => simpa
  | cons v rest ih =>
    rw [List.foldl_cons]
    by_cases hv : v ∈ acc
    · simp only [hv, if_pos]
      exact ih acc h
    · simp only [hv, if_neg, not_false_iff]
      refine ih _ ?_
      rw [List.nodup_append]
      refine ⟨h, List.nodup_singleton v, ?_⟩
      intro a ha hb
      simp at hb
      subst hb
      exact hv ha

theorem dedupVal_nodup (l : List Val) : (dedupVal l).Nodup :=
  dedupVal_nodup_aux l [] List.nodup_nil

theorem mergeEnums_mem (a b : List Val) (x : Val) :
    x ∈ mergeEnums a b ↔ x ∈ a ∨ x ∈ b := by
  rw [mergeEnums]
  by_cases ha : a.length = 0
  · simp [ha, List.length_eq_zero.mp ha]
  · by_cases hb : b.length = 0
    · simp [ha, hb, List.length_eq_zero.mp hb]
    · simp [ha, hb, dedupVal_mem]

theorem mergeSchema_enum (a b : Schema) :
    (mergeSchema a b).enum = mergeEnums a.enum b.enum := by
  rw [mergeSchema]
  repeat' split
  all_goals simp

/-- C7: for all enum lists, the merged schema's enum contains exactly the
values of the union of the two inputs' enums, and merging in either order
gives enums with the same members (the order may differ); moreover when
both input enums are nonempty the merged enum is duplicate-free. -/
theorem C7_mergeSchema_enum_union (a b : Schema) (x : Val) :
    (x ∈ (mergeSchema a b).enum ↔ x ∈ a.enum ∨ x ∈ b.enum) ∧
    (x ∈ (mergeSchema a b).enum ↔ x ∈ (mergeSchema b a).enum) ∧
    (a.enum ≠ [] → b.enum ≠ [] → ((mergeSchema a b).enum).Nodup) := by
  refine ⟨?_, ?_, ?_⟩
  · rw [mergeSchema_enum, mergeEnums_mem]
  · rw [mergeSchema_enum, mergeEnums_mem, mergeSchema_enum, mergeEnums_mem]
    tauto
  · intro ha hb
    rw [mergeSchema_enum, mergeEnums]
    simp [ha, hb]
    exact dedupVal_nodup _

/-- Witness for C7 at concrete enums {red, green} and {green, blue}. -/
theorem C7_mergeSchema_enum_union_witness :
    (Val.vstr "red") ∈ (mergeSchema
      (Schema.mk "string" "" [] none [] [.vstr "red", .vstr "green"] none false)
      (Schema.mk "string" "" [] none [] [.vstr "green", .vstr "blue"] none false)).enum ∧
    ((mergeSchema
      (Schema.mk "string" "" [] none [] [.vstr "red", .vstr "green"] none false)
      (Schema.mk "string" "" [] none [] [.vstr "green", .vstr "blue"] none false)).enum).Nodup :=
  ⟨(C7_mergeSchema_enum_union
      (Schema.mk "string" "" [] none [] [.vstr "red", .vstr "green"] none false)
      (Schema.mk "string" "" [] none [] [.vstr "green", .vstr "blue"] none false)
      (Val.vstr "red")).1.mpr (Or.inl (by simp [Schema.enum])),
   (C7_mergeSchema_enum_union
      (Schema.mk "string" "" [] none [] [.vstr "red", .vstr "green"] none false)
      (Schema.mk "string" "" [] none [] [.vstr "green", .vstr "blue"] none false)
      (Val.vstr "red")).2.2 (by simp [Schema.enum]) (by simp [Schema.enum])⟩

/-! ### Required/Example erasure (for the claim that `AreSchemasEqual`
never inspects those two fields) -/

mutual

/-- Erase the `Required` and `Example` fields everywhere in a schema tree;
two schemas are "identical except possibly in Required/Example" exactly
when their erasures are equal. -/
def eraseRE : Schema → Schema
  | .mk t f props items _ enum _ n =>
    .mk t f (erasePropsRE props) (eraseItemsRE items) [] enum none n

/-- `eraseRE` on a properties map. -/
def erasePropsRE : List (String × Schema) → List (String × Schema)
  | [] => []
  | (k, s) :: rest => (k, eraseRE s) :: erasePropsRE rest

/-- `eraseRE` on an optional items schema. -/
def eraseItemsRE : Option Schema → Option Schema
  | none => none
  | some s => some (eraseRE s)

end

mutual

/-- Well-formedness of a schema as produced by the Go code: every
properties map (a Go map) has pairwise distinct keys, recursively. -/
def schemaWF : Schema → Bool
  | .mk _ _ props items _ _ _ _ =>
    decide ((props.map Prod.fst).Nodup) && schemaPropsWF props && schemaItemsWF items

/-- `schemaWF` on a properties map. -/
def schemaPropsWF : List (String × Schema) → Bool
  | [] => true
  | (_, s) :: rest => schemaWF s && schemaPropsWF rest

/-- `schemaWF` on an optional items schema. -/
def schemaItemsWF : Option Schema → Bool
  | none => true
  | some s => schemaWF s

end

theorem eraseRE_eq (s : Schema) :
    eraseRE s = .mk s.type s.format (erasePropsRE s.properties) (eraseItemsRE s.items)
      [] s.enum none s.nullable := by
  cases s
  rfl

theorem erasePropsRE_eq_map (l : List (String × Schema)) :
    erasePropsRE l = l.map (fun p => (p.1, eraseRE p.2)) := by
  induction l with
  | nil => rfl
  | cons p rest ih =>
    obtain ⟨k, s⟩ := p
    simp [erasePropsRE, ih]

theorem schemaPropsWF_mem (l : List (String × Schema)) (h : schemaPropsWF l = true) :
    ∀ p ∈ l, schemaWF p.2 = true := by
  induction l with
  | nil => simp
  | cons q rest ih =>
    obtain ⟨k, s⟩ := q
    simp only [schemaPropsWF, Bool.and_eq_true] at h
    intro p hp
    rcases List.mem_cons.mp hp with h1 | h1
    · subst h1
      exact h.1
    · exact ih h.2 p h1

theorem valListBeq_refl (l : List Val) : valListBeq l l = true := by
  induction l with
  | nil => rfl
  | cons x rest ih =>
    simp only [valListBeq, Bool.and_eq_true]
    exact ⟨(valBeq_iff x x).mpr rfl, ih⟩

theorem lookup_erase_exists (ap bp : List (String × Schema))
    (hmap : ap.map (fun p => (p.1, eraseRE p.2)) = bp.map (fun p => (p.1, eraseRE p.2)))
    (hnd : (ap.map Prod.fst).Nodup) :
    ∀ p ∈ ap, ∃ pb, bp.lookup p.1 = some pb ∧ eraseRE p.2 = eraseRE pb := by
  induction ap generalizing bp with
  | nil => simp
  | cons q rest ih =>
    obtain ⟨k, sa⟩ := q
    cases bp with
    | nil => simp at hmap
    | cons qb brest =>
      obtain ⟨kb, sb⟩ := qb
      simp only [List.map_cons, List.cons.injEq, Prod.mk.injEq] at hmap
      obtain ⟨⟨hk, hs⟩, htail⟩ := hmap
      subst hk
      simp only [List.map_cons, List.nodup_cons] at hnd
      intro p hp
      rcases List.mem_cons.mp hp with h1 | h1
      · subst h1
        exact ⟨sb, by simp [List.lookup], hs⟩
      · obtain ⟨pb, hlook, he⟩ := ih brest htail hnd.2 p h1
        refine ⟨pb, ?_, he⟩
        have hne : p.1 ≠ k := by
          intro heq
          exact hnd.1 (heq ▸ List.mem_map_of_mem Prod.fst h1)
        have hbeq : (p.1 == k) = false := beq_eq_false_iff_ne.mpr hne
        simp [List.lookup, hbeq, hlook]

theorem propsEqual_of_pointwise (ap bp : List (String × Schema))
    (h : ∀ p ∈ ap, ∃ pb, bp.lookup p.1 = some pb ∧ AreSchemasEqual p.2 pb = true) :
    propsEqual ap bp = true := by
  induction ap with
  | nil => rw [propsEqual]
  | cons q rest ih =>
    obtain ⟨pb, hlook, heq⟩ := h q (by simp)
    rw [propsEqual]
    rw [hlook]
    simp only [Bool.and_eq_true]
    exact ⟨heq, ih (fun p hp => h p (List.mem_cons_of_mem _ hp))⟩

/-- C10: `AreSchemasEqual` never inspects the `Required` or `Example`
fields: any two well-formed schemas that agree everywhere except possibly
in their Required lists and Example values (at any nesting depth) compare
equal. -/
theorem C10_AreSchemasEqual_ignores_required_example (a b : Schema)
    (hwf : schemaWF a = true) (h : eraseRE a = eraseRE b) :
    AreSchemasEqual a b = true := by
  have MAIN : ∀ n, ∀ a b : Schema, sizeOf a ≤ n → schemaWF a = true → eraseRE a = eraseRE b →
      AreSchemasEqual a b = true := by
    intro n
    induction n using Nat.strong_induction_on with
    | _ n ih =>
      intro a b hsz hwf h
      cases a with
      | mk ta fa pa ia ra ea xa na =>
        cases b with
        | mk tb fb pb ib rb eb xb nb =>
          simp only [eraseRE, Schema.mk.injEq] at h
          obtain ⟨hT, hF, hP, hI, -, hE, -, hN⟩ := h
          simp only [schemaWF, Bool.and_eq_true, decide_eq_true_eq] at hwf
          obtain ⟨⟨hnd, hpwf⟩, hiwf⟩ := hwf
          have hszp : sizeOf pa < sizeOf (Schema.mk ta fa pa ia ra ea xa na) := by
            simp
            omega
          rw [AreSchemasEqual]
          rw [if_pos (by
            simp only [Schema.type, Schema.format, Schema.nullable]
            exact ⟨hT, hF, hN⟩)]
          simp only [Schema.type, Schema.format, Schema.nullable, Schema.properties,
            Schema.items, Schema.enum, Bool.and_eq_true]
          refine ⟨⟨?_, ?_⟩, ?_⟩
          · split
            · simp only [Bool.and_eq_true]
              rw [erasePropsRE_eq_map, erasePropsRE_eq_map] at hP
              constructor
              · simp only [decide_eq_true_eq]
                have := congrArg List.length hP
                simpa using this
              · refine propsEqual_of_pointwise _ _ (fun p hp => ?_)
                obtain ⟨pb2, hlook, he⟩ := lookup_erase_exists pa pb hP hnd p hp
                refine ⟨pb2, hlook, ?_⟩
                have hszq : sizeOf p.2 < sizeOf pa := by
                  have h1 : sizeOf p < sizeOf pa := List.sizeOf_lt_of_mem hp
                  have h3 : sizeOf p.2 ≤ sizeOf p := by
                    obtain ⟨k, v⟩ := p
                    simp
                  omega
                exact ih (sizeOf p.2) (by omega) p.2 pb2 le_rfl
                  (schemaPropsWF_mem pa hpwf p hp) he
            · rfl
          · split
            · rcases ia with _ | ia0 <;> rcases ib with _ | ib0 <;>
                simp only [eraseItemsRE, Option.some.injEq, reduceCtorEq] at hI <;>
                simp only []
              · have hszi : sizeOf ia0 < sizeOf (Schema.mk ta fa pa (some ia0) ra ea xa na) := by
                  simp
                  omega
                have hwfi : schemaWF ia0 = true := by simpa [schemaItemsWF] using hiwf
                exact ih (sizeOf ia0) (by omega) ia0 ib0 le_rfl hwfi hI
            · rfl
          · rw [hE]
            exact valListBeq_refl eb
  exact MAIN (sizeOf a) a b le_rfl hwf h

/-- Witness for C10: two object schemas differing in Required, in the
top-level Example and in a nested property's Example compare equal. -/
theorem C10_AreSchemasEqual_ignores_required_example_witness :
    AreSchemasEqual
      (Schema.mk "object" ""
        [("x", Schema.mk "string" "" [] none [] [] none false)]
        none ["x"] [] (some (.vnum 1)) false)
      (Schema.mk "object" ""
        [("x", Schema.mk "string" "" [] none [] [] (some (.vstr "a")) false)]
        none [] [] none false) = true :=
  C10_AreSchemasEqual_ignores_required_example _ _ (by rfl) (by rfl)

/-! ### Facts about the `enhanceNumberSchema` fold and the sample tallies -/

theorem enhanceNumFold_bounds (tail : List Val) (init : Rat × Rat × Bool) :
    (0 ≤ (tail.foldl enhanceNumStep init).1 ∧ (tail.foldl enhanceNumStep init).2.1 ≤ 255) ↔
    ((0 ≤ init.1 ∧ init.2.1 ≤ 255) ∧ ∀ q : Rat, Val.vnum q ∈ tail → 0 ≤ q ∧ q ≤ 255) := by
  induction tail generalizing init with
  | nil => simp
  | cons v rest ih =>
    rw [List.foldl_cons, ih]
    cases v with
    | vnum q =>
      simp only [enhanceNumStep, le_min_iff, max_le_iff, List.mem_cons, Val.vnum.injEq]
      constructor
      · rintro ⟨⟨⟨hi0, hq0⟩, hi255, hq255⟩, hrest⟩
        refine ⟨⟨hi0, hi255⟩, fun q2 hq2 => ?_⟩
        rcases hq2 with he | hm
        · subst he
          exact ⟨hq0, hq255⟩
        · exact hrest q2 hm
      · rintro ⟨⟨hi0, hi255⟩, hall⟩
        have hq := hall q (Or.inl rfl)
        exact ⟨⟨⟨hi0, hq.1⟩, hi255, hq.2⟩, fun q2 hm => hall q2 (Or.inr hm)⟩
    | vnull => simp [enhanceNumStep]
    | vbool b => simp [enhanceNumStep]
    | vstr s => simp [enhanceNumStep]
    | varr l => simp [enhanceNumStep]
    | vobj l => simp [enhanceNumStep]

theorem enhanceNumFold_allInt (tail : List Val) (init : Rat × Rat × Bool) :
    ((tail.foldl enhanceNumStep init).2.2 = true) ↔
    (init.2.2 = true ∧ ∀ q : Rat, Val.vnum q ∈ tail → int64RoundTrips q = true) := by
  induction tail generalizing init with
  | nil => simp
  | cons v rest ih =>
    rw [List.foldl_cons, ih]
    cases v with
    | vnum q =>
      simp only [enhanceNumStep, Bool.and_eq_true, beq_iff_eq, List.mem_cons, Val.vnum.injEq]
      constructor
      · rintro ⟨⟨hi, hq⟩, hrest⟩
        refine ⟨hi, fun q2 hq2 => ?_⟩
        rcases hq2 with he | hm
        · subst he
          exact hq
        · exact hrest q2 hm
      · rintro ⟨hi, hall⟩
        exact ⟨⟨hi, hall q (Or.inl rfl)⟩, fun q2 hm => hall q2 (Or.inr hm)⟩
    | vnull => simp [enhanceNumStep]
    | vbool b => simp [enhanceNumStep]
    | vstr s => simp [enhanceNumStep]
    | varr l => simp [enhanceNumStep]
    | vobj l => simp [enhanceNumStep]

theorem allNum_counts (samples : List Val) (hnum : ∀ v ∈ samples, ∃ q : Rat, v = Val.vnum q) :
    nullCountOf samples = 0 ∧ stringCountOf samples = 0 ∧ boolCountOf samples = 0 ∧
    objectCountOf samples = 0 ∧ arrayCountOf samples = 0 ∧
    numberCountOf samples = samples.length := by
  refine ⟨?_, ?_, ?_, ?_, ?_, ?_⟩
  · rw [nullCountOf, List.countP_eq_zero]
    intro v hv
    obtain ⟨q, rfl⟩ := hnum v hv
    simp
  · rw [stringCountOf, List.countP_eq_zero]
    intro v hv
    obtain ⟨q, rfl⟩ := hnum v hv
    simp
  · rw [boolCountOf, List.countP_eq_zero]
    intro v hv
    obtain ⟨q, rfl⟩ := hnum v hv
    simp
  · rw [objectCountOf, List.countP_eq_zero]
    intro v hv
    obtain ⟨q, rfl⟩ := hnum v hv
    simp
  · rw [arrayCountOf, List.countP_eq_zero]
    intro v hv
    obtain ⟨q, rfl⟩ := hnum v hv
    simp
  · rw [numberCountOf, List.countP_eq_length]
    intro v hv
    obtain ⟨q, rfl⟩ := hnum v hv
    simp

theorem handleMixed_allNum_mixed (fuel : Nat) (t : TypeInferrer) (path : String)
    (samples : List Val) (hs : t.samples path = some samples) (hne : samples ≠ [])
    (hnum : ∀ v ∈ samples, ∃ q : Rat, v = Val.vnum q)
    (hmix : ∃ q : Rat, Val.vnum q ∈ samples ∧ int64RoundTrips q = false) :
    handleMixedTypesF fuel t path = (Schema.mk "number" "" [] none [] [] none false, t) := by
  obtain ⟨h0, h1, h2, h3, h4, h5⟩ := allNum_counts samples hnum
  have hlen : 0 < samples.length := List.length_pos.mpr hne
  have hint : ¬(intCountOf samples = samples.length) := by
    obtain ⟨qb, hqb, hden⟩ := hmix
    intro he
    rw [intCountOf] at he
    have hg := (List.countP_eq_length.mp he) _ hqb
    simp at hg
    rw [hden] at hg
    exact absurd hg (by simp)
  have hdom : dominantOf samples = (samples.length, "number") := by
    rw [dominantOf]
    simp only [h1, h2, h3, h4, h5, hint]
    simp [hlen, if_neg hint]
  rw [handleMixedTypesF]
  rw [hs]
  simp only [Option.getD_some, hdom, h0]
  rw [if_pos (by omega)]
  simp

/-- C5 (amended): for a path whose samples are all numeric, when the
samples agree on the int64 round-trip test `v == float64(int64(v))`
(integral AND inside the int64 range), at least 3 passing samples yield
integer with int32 exactly for an observed range inside [0,255] (else
int64), all-failing samples yield number/double for any count, and fewer
than 3 passing samples keep the initial integer/int64; when the test is
mixed across the samples, the inferred types disagree and the mixed-type
handler yields type number with an EMPTY format, not number/double as
originally claimed. -/
theorem C5_numeric_refinement (fuel : Nat) (t : TypeInferrer) (path : String)
    (samples : List Val) (hs : t.samples path = some samples) (hne : samples ≠ [])
    (hnum : ∀ v ∈ samples, ∃ q : Rat, v = Val.vnum q) :
    ((∀ q : Rat, Val.vnum q ∈ samples → int64RoundTrips q = true) → 3 ≤ samples.length →
      ((InferSchemaF (fuel + 1) t path).1.map Schema.type = some "integer" ∧
       ((∀ q : Rat, Val.vnum q ∈ samples → 0 ≤ q ∧ q ≤ 255) →
         (InferSchemaF (fuel + 1) t path).1.map Schema.format = some "int32") ∧
       ((∃ q : Rat, Val.vnum q ∈ samples ∧ ¬(0 ≤ q ∧ q ≤ 255)) →
         (InferSchemaF (fuel + 1) t path).1.map Schema.format = some "int64"))) ∧
    ((∀ q : Rat, Val.vnum q ∈ samples → int64RoundTrips q = true) → samples.length < 3 →
      (InferSchemaF (fuel + 1) t path).1.map (fun s => (s.type, s.format)) =
        some ("integer", "int64")) ∧
    ((∀ q : Rat, Val.vnum q ∈ samples → int64RoundTrips q = false) →
      (InferSchemaF (fuel + 1) t path).1.map (fun s => (s.type, s.format)) =
        some ("number", "double")) ∧
    ((∃ q : Rat, Val.vnum q ∈ samples ∧ int64RoundTrips q = true) →
     (∃ q : Rat, Val.vnum q ∈ samples ∧ int64RoundTrips q = false) →
      (InferSchemaF (fuel + 1) t path).1.map (fun s => (s.type, s.format)) =
        some ("number", "")) := by
  cases samples with
  | nil => exact absurd rfl hne
  | cons s0 rest =>
    obtain ⟨q0, rfl⟩ := hnum s0 (by simp)
    have hunfold : InferSchemaF (fuel + 1) t path =
        if rest.all (fun s => (inferType s).type == (inferType (Val.vnum q0)).type)
        then (some (enhanceSchema t.maxSamples (inferType (Val.vnum q0)) (Val.vnum q0 :: rest)), t)
        else (some (handleMixedTypesF fuel t path).1, (handleMixedTypesF fuel t path).2) := by
      simp only [InferSchemaF]
      rw [hs]
    refine ⟨?_, ?_, ?_, ?_⟩
    · -- all integral, at least 3 samples
      intro hint h3
      have hd0 : int64RoundTrips q0 = true := hint q0 (by simp)
      have hSchema : inferType (Val.vnum q0) =
          Schema.mk "integer" "int64" [] none [] [] (some (.vnum q0)) false := by
        simp [inferType, hd0]
      have hall : rest.all (fun s => (inferType s).type == (inferType (Val.vnum q0)).type) = true := by
        rw [List.all_eq_true]
        intro s hsm
        obtain ⟨q, rfl⟩ := hnum s (List.mem_cons_of_mem _ hsm)
        have hd : int64RoundTrips q = true := hint q (List.mem_cons_of_mem _ hsm)
        simp [inferType, hd, hd0, Schema.type]
      rw [hunfold, if_pos hall]
      have henh : enhanceSchema t.maxSamples (inferType (Val.vnum q0)) (Val.vnum q0 :: rest) =
          enhanceNumberSchema (inferType (Val.vnum q0)) (Val.vnum q0 :: rest) := by
        rw [enhanceSchema, hSchema]
        simp [Schema.type]
      rw [henh]
      rw [enhanceNumberSchema]
      rw [if_pos (by simpa using h3)]
      simp only [List.head?_cons, List.tail_cons, hd0]
      have hres : (rest.foldl enhanceNumStep (q0, q0, true)).2.2 = true := by
        rw [enhanceNumFold_allInt]
        exact ⟨by simp, fun q hq => hint q (List.mem_cons_of_mem _ hq)⟩
      rw [if_pos hres]
      refine ⟨by simp [hSchema], ?_, ?_⟩
      · intro hbound
        have : (0 ≤ (rest.foldl enhanceNumStep (q0, q0, true)).1 ∧
            (rest.foldl enhanceNumStep (q0, q0, true)).2.1 ≤ 255) := by
          rw [enhanceNumFold_bounds]
          exact ⟨by simpa using hbound q0 (by simp),
            fun q hq => hbound q (List.mem_cons_of_mem _ hq)⟩
        rw [if_pos this]
        simp
      · rintro ⟨qb, hqb, hviol⟩
        have : ¬(0 ≤ (rest.foldl enhanceNumStep (q0, q0, true)).1 ∧
            (rest.foldl enhanceNumStep (q0, q0, true)).2.1 ≤ 255) := by
          rw [enhanceNumFold_bounds]
          rintro ⟨hq0b, hrestb⟩
          rcases List.mem_cons.mp hqb with he | hm
          · rw [Val.vnum.injEq] at he
            subst he
            exact hviol hq0b
          · exact hviol (hrestb qb hm)
        rw [if_neg this]
        simp
    · -- all integral, fewer than 3 samples
      intro hint hlt
      have hd0 : int64RoundTrips q0 = true := hint q0 (by simp)
      have hSchema : inferType (Val.vnum q0) =
          Schema.mk "integer" "int64" [] none [] [] (some (.vnum q0)) false := by
        simp [inferType, hd0]
      have hall : rest.all (fun s => (inferType s).type == (inferType (Val.vnum q0)).type) = true := by
        rw [List.all_eq_true]
        intro s hsm
        obtain ⟨q, rfl⟩ := hnum s (List.mem_cons_of_mem _ hsm)
        have hd : int64RoundTrips q = true := hint q (List.mem_cons_of_mem _ hsm)
        simp [inferType, hd, hd0, Schema.type]
      rw [hunfold, if_pos hall]
      have henh : enhanceSchema t.maxSamples (inferType (Val.vnum q0)) (Val.vnum q0 :: rest) =
          enhanceNumberSchema (inferType (Val.vnum q0)) (Val.vnum q0 :: rest) := by
        rw [enhanceSchema, hSchema]
        simp [Schema.type]
      rw [henh]
      rw [enhanceNumberSchema]
      rw [if_neg (by simp only [List.length_cons] at hlt ⊢; omega)]
      simp [hSchema, Schema.type, Schema.format]
    · -- none integral
      intro hnint
      have hd0 : int64RoundTrips q0 = false := hnint q0 (by simp)
      have hSchema : inferType (Val.vnum q0) =
          Schema.mk "number" "double" [] none [] [] (some (.vnum q0)) false := by
        simp [inferType, hd0]
      have hall : rest.all (fun s => (inferType s).type == (inferType (Val.vnum q0)).type) = true := by
        rw [List.all_eq_true]
        intro s hsm
        obtain ⟨q, rfl⟩ := hnum s (List.mem_cons_of_mem _ hsm)
        have hd : int64RoundTrips q = false := hnint q (List.mem_cons_of_mem _ hsm)
        simp [inferType, hd, hd0, Schema.type]
      rw [hunfold, if_pos hall]
      have henh : enhanceSchema t.maxSamples (inferType (Val.vnum q0)) (Val.vnum q0 :: rest) =
          enhanceNumberSchema (inferType (Val.vnum q0)) (Val.vnum q0 :: rest) := by
        rw [enhanceSchema, hSchema]
        simp [Schema.type]
      rw [henh]
      rw [enhanceNumberSchema]
      by_cases h3 : 3 ≤ (Val.vnum q0 :: rest).length
      · rw [if_pos (by simpa using h3)]
        simp only [List.head?_cons, List.tail_cons, hd0]
        have hres : (rest.foldl enhanceNumStep (q0, q0, false)).2.2 = false := by
          rw [← Bool.not_eq_true, enhanceNumFold_allInt]
          simp
        rw [if_neg (by simp [hres])]
        simp [hSchema, Schema.type, Schema.format, Schema.setType, Schema.setFormat]
      · rw [if_neg (by simpa using h3)]
        simp [hSchema, Schema.type, Schema.format, Schema.setType, Schema.setFormat]
    · -- mixed integrality
      rintro ⟨qa, hqa, hda⟩ ⟨qb, hqb, hdb⟩
      have hall : rest.all (fun s => (inferType s).type == (inferType (Val.vnum q0)).type) = false := by
        rw [List.all_eq_false]
        by_cases hd0 : int64RoundTrips q0 = true
        · rcases List.mem_cons.mp hqb with he | hm
          · rw [Val.vnum.injEq] at he
            subst he
            rw [hd0] at hdb
            exact absurd hdb (by simp)
          · exact ⟨Val.vnum qb, hm, by simp [inferType, hdb, hd0, Schema.type]⟩
        · rcases List.mem_cons.mp hqa with he | hm
          · rw [Val.vnum.injEq] at he
            subst he
            exact absurd hda hd0
          · exact ⟨Val.vnum qa, hm, by simp [inferType, hda, hd0, Schema.type]⟩
      rw [hunfold, if_neg (by simp [hall])]
      rw [handleMixed_allNum_mixed fuel t path (Val.vnum q0 :: rest) hs hne hnum ⟨qb, hqb, hdb⟩]
      simp [Schema.type, Schema.format]

/-- Counterexample for C5 as stated: three numeric samples 1, 3/2, 2 (some
integral, one not) produce a schema of type number with an EMPTY format —
the claim's "number with format double" does not hold, because mixed
integrality makes the single-value inferred types disagree and inference
takes the mixed-type branch, which never sets a format for a numeric
dominant type. -/
theorem C5_counterexample :
    ((InferSchemaF 5
      ((((NewTypeInferrer 10).AddSample "p" (.vnum 1)).AddSample "p"
        (.vnum (mkRat 3 2))).AddSample "p" (.vnum 2)) "p").1.map
      (fun s => (s.type, s.format))) = some ("number", "") ∧
    ("number", "") ≠ ("number", "double") := by
  constructor
  · simp only [InferSchemaF, handleMixedTypesF]
    decide
  · decide

/-- Witness for C5 (amended): the integral in-range samples 1, 2, 3 give
type integer, while three copies of the integral but out-of-int64-range
1e19 — whose round trip fails — give number/double. -/
theorem C5_numeric_refinement_witness :
    ((InferSchemaF 5
      ((((NewTypeInferrer 10).AddSample "p" (.vnum 1)).AddSample "p"
        (.vnum 2)).AddSample "p" (.vnum 3)) "p").1.map Schema.type = some "integer") ∧
    ((InferSchemaF 5
      ((((NewTypeInferrer 10).AddSample "p"
        (.vnum 10000000000000000000)).AddSample "p"
        (.vnum 10000000000000000000)).AddSample "p"
        (.vnum 10000000000000000000)) "p").1.map (fun s => (s.type, s.format)) =
      some ("number", "double")) := by
  constructor
  · have h := (C5_numeric_refinement 4
      ((((NewTypeInferrer 10).AddSample "p" (.vnum 1)).AddSample "p"
          (.vnum 2)).AddSample "p" (.vnum 3)) "p"
      [.vnum 1, .vnum 2, .vnum 3] (by rfl) (by simp)
      (by
        intro v hv
        simp at hv
        rcases hv with rfl | rfl | rfl
        exacts [⟨1, rfl⟩, ⟨2, rfl⟩, ⟨3, rfl⟩])).1
    exact (h (by
      intro q hq
      simp at hq
      rcases hq with rfl | rfl | rfl <;> decide) (by simp)).1
  · have h := (C5_numeric_refinement 4
      ((((NewTypeInferrer 10).AddSample "p"
          (.vnum 10000000000000000000)).AddSample "p"
          (.vnum 10000000000000000000)).AddSample "p"
          (.vnum 10000000000000000000)) "p"
      [.vnum 10000000000000000000, .vnum 10000000000000000000,
       .vnum 10000000000000000000] (by rfl) (by simp)
      (by
        intro v hv
        simp at hv
        exact ⟨10000000000000000000, hv⟩)).2.2.1
    exact h (by
      intro q hq
      simp at hq
      rw [hq]
      decide)

theorem dedupStr_mem_aux (l acc : List String) (x : String) :
    x ∈ l.foldl (fun acc s => if s ∈ acc then acc else acc ++ [s]) acc ↔ x ∈ acc ∨ x ∈ l := by
  induction l generalizing acc with
  | nil => simp
  | cons v rest ih =>
    rw [List.foldl_cons, ih]
    by_cases hv : v ∈ acc
    · simp only [hv, if_pos, List.mem_cons]
      constructor
      · rintro (h | h)
        · exact Or.inl h
        · exact Or.inr (Or.inr h)
      · rintro (h | h | h)
        · exact Or.inl h
        · subst h
          exact Or.inl hv
        · exact Or.inr h
    · simp only [hv, if_neg, not_false_iff, List.mem_append, List.mem_singleton,
        List.mem_cons, List.not_mem_nil, or_false]
      tauto

theorem dedupStr_mem (l : List String) (x : String) : x ∈ dedupStr l ↔ x ∈ l := by
  rw [dedupStr, dedupStr_mem_aux]
  simp

theorem dedupStr_nodup_aux (l acc : List String) (h : acc.Nodup) :
    (l.foldl (fun acc s => if s ∈ acc then acc else acc ++ [s]) acc).Nodup := by
  induction l generalizing acc with
  | nil => simpa
  | cons v rest ih =>
    rw [List.foldl_cons]
    by_cases hv : v ∈ acc
    · simp only [hv, if_pos]
      exact ih acc h
    · simp only [hv, if_neg, not_false_iff]
      refine ih _ ?_
      rw [List.nodup_append]
      refine ⟨h, List.nodup_singleton v, ?_⟩
      intro a ha hb
      simp at hb
      subst hb
      exact hv ha

theorem dedupStr_nodup (l : List String) : (dedupStr l).Nodup :=
  dedupStr_nodup_aux l [] List.nodup_nil

/-- The enum of the schema produced by `enhanceStringSchema`: set to the
deduplicated rendered strings exactly under the sample-count / distinct /
length / repetition guard, otherwise left as the input schema's enum
(the trailing format-detection step never touches the enum). -/
theorem enhanceStringSchema_enum (schema : Schema) (samples : List Val) :
    (enhanceStringSchema schema samples).enum =
      if 2 ≤ samples.length ∧ samples.length ≤ 10 then
        if (dedupStr (samples.filterMap strOfVal)).length ≤ 5 ∧
            ((samples.filterMap strOfVal).all fun s => s.utf8ByteSize ≤ 30) = true ∧
            (dedupStr (samples.filterMap strOfVal)).length <
              (samples.filterMap strOfVal).length then
          (dedupStr (samples.filterMap strOfVal)).map Val.vstr
        else schema.enum
      else schema.enum := by
  simp only [enhanceStringSchema]
  by_cases h1 : 2 ≤ samples.length ∧ samples.length ≤ 10
  · by_cases h2 : (dedupStr (samples.filterMap strOfVal)).length ≤ 5 ∧
        ((samples.filterMap strOfVal).all fun s => s.utf8ByteSize ≤ 30) = true ∧
        (dedupStr (samples.filterMap strOfVal)).length <
          (samples.filterMap strOfVal).length
    · simp only [if_pos h1, if_pos h2]
      split
      · split <;> simp
      · simp
    · simp only [if_pos h1, if_neg h2]
      split
      · split <;> simp
      · rfl
  · simp only [if_neg h1]
    split
    · split <;> simp
    · rfl

/-- The format of the schema produced by `enhanceStringSchema` on a
nonempty sample list headed by a string: when the input schema's format is
the Format Detector's result on that head string, so is the output's
(either the format is kept, or it is empty and re-detected on the head). -/
theorem enhanceStringSchema_format_cons (schema : Schema) (x0 : String) (rest : List Val)
    (hf : schema.format = inferStringFormat x0) :
    (enhanceStringSchema schema (Val.vstr x0 :: rest)).format = inferStringFormat x0 := by
  simp only [enhanceStringSchema, List.head?_cons]
  repeat' split
  all_goals simp [hf]

/-- C4 (amended): for a path whose samples are all strings, the refined
schema carries an enum exactly when the sample count is between 2 and 10,
there are at most 5 distinct rendered values, every rendered value is AT
MOST 30 bytes long (the original claim said strictly shorter than 30), and
the distinct count is strictly below the sample count; the enum is then
duplicate-free and holds exactly the distinct rendered values as a SET
(Go emits it by ranging over a map, so no order is guaranteed), and the
schema's format is always the Format Detector's result on the first
sample. -/
theorem C4_enum_detection (fuel : Nat) (t : TypeInferrer) (path : String)
    (samples : List Val) (hs : t.samples path = some samples) (hne : samples ≠ [])
    (hstr : ∀ v ∈ samples, ∃ x : String, v = Val.vstr x) :
    ∃ s, (InferSchemaF (fuel + 1) t path).1 = some s ∧
      (s.enum ≠ [] ↔
        (2 ≤ samples.length ∧ samples.length ≤ 10 ∧
         (dedupStr (samples.filterMap strOfVal)).length ≤ 5 ∧
         (∀ x ∈ samples.filterMap strOfVal, x.utf8ByteSize ≤ 30) ∧
         (dedupStr (samples.filterMap strOfVal)).length <
           (samples.filterMap strOfVal).length)) ∧
      (s.enum ≠ [] →
        (s.enum.Nodup ∧
         ∀ v, v ∈ s.enum ↔ ∃ x ∈ samples.filterMap strOfVal, v = Val.vstr x)) ∧
      (∀ x1 : String, samples.head? = some (Val.vstr x1) →
        s.format = inferStringFormat x1) := by
  cases samples with
  | nil => exact absurd rfl hne
  | cons s0 rest =>
    obtain ⟨x0, rfl⟩ := hstr s0 (by simp)
    have hall : rest.all
        (fun s => (inferType s).type == (inferType (Val.vstr x0)).type) = true := by
      rw [List.all_eq_true]
      intro s hsm
      obtain ⟨x, rfl⟩ := hstr s (List.mem_cons_of_mem _ hsm)
      simp [inferType, Schema.type]
    have hunfold : InferSchemaF (fuel + 1) t path =
        if rest.all (fun s => (inferType s).type == (inferType (Val.vstr x0)).type)
        then (some (enhanceSchema t.maxSamples (inferType (Val.vstr x0)) (Val.vstr x0 :: rest)), t)
        else (some (handleMixedTypesF fuel t path).1, (handleMixedTypesF fuel t path).2) := by
      simp only [InferSchemaF]
      rw [hs]
    have hres1 : (InferSchemaF (fuel + 1) t path).1 =
        some (enhanceSchema t.maxSamples (inferType (Val.vstr x0)) (Val.vstr x0 :: rest)) := by
      rw [hunfold, if_pos hall]
    have henh : enhanceSchema t.maxSamples (inferType (Val.vstr x0)) (Val.vstr x0 :: rest) =
        enhanceStringSchema (inferType (Val.vstr x0)) (Val.vstr x0 :: rest) := by
      rw [enhanceSchema]
      simp [inferType, Schema.type]
    have henum0 : (inferType (Val.vstr x0)).enum = [] := by
      simp [inferType, Schema.enum]
    have hfilter : (Val.vstr x0 :: rest).filterMap strOfVal =
        x0 :: rest.filterMap strOfVal := by
      simp [List.filterMap_cons, strOfVal]
    refine ⟨enhanceStringSchema (inferType (Val.vstr x0)) (Val.vstr x0 :: rest),
      by rw [hres1, henh], ?_, ?_, ?_⟩
    · rw [enhanceStringSchema_enum, henum0]
      split
      · rename_i h1
        split
        · rename_i h2
          have hmem : Val.vstr x0 ∈
              (dedupStr ((Val.vstr x0 :: rest).filterMap strOfVal)).map Val.vstr :=
            List.mem_map_of_mem Val.vstr
              ((dedupStr_mem _ _).mpr (by rw [hfilter]; simp))
          constructor
          · intro _
            refine ⟨h1.1, h1.2, h2.1, ?_, h2.2.2⟩
            intro x hx
            have := List.all_eq_true.mp h2.2.1 x hx
            simpa using this
          · intro _
            exact List.ne_nil_of_mem hmem
        · rename_i h2
          simp only [ne_eq, not_true_eq_false, false_iff]
          intro hcond
          refine h2 ⟨hcond.2.2.1, ?_, hcond.2.2.2.2⟩
          rw [List.all_eq_true]
          intro x hx
          simpa using hcond.2.2.2.1 x hx
      · rename_i h1
        simp only [ne_eq, not_true_eq_false, false_iff]
        intro hcond
        exact h1 ⟨hcond.1, hcond.2.1⟩
    · rw [enhanceStringSchema_enum, henum0]
      split
      · split
        · intro _
          constructor
          · refine List.Nodup.map ?_ (dedupStr_nodup _)
            intro x y hxy
            simpa using hxy
          · intro v
            constructor
            · intro hv
              obtain ⟨x, hx, rfl⟩ := List.mem_map.mp hv
              exact ⟨x, (dedupStr_mem _ _).mp hx, rfl⟩
            · rintro ⟨x, hx, rfl⟩
              exact List.mem_map_of_mem _ ((dedupStr_mem _ _).mpr hx)
        · intro hx
          exact absurd rfl hx
      · intro hx
        exact absurd rfl hx
    · intro x1 hx1
      simp only [List.head?_cons, Option.some.injEq, Val.vstr.injEq] at hx1
      subst hx1
      exact enhanceStringSchema_format_cons _ _ _ (by simp [inferType, Schema.format])

/-- Counterexample for C4 as stated: two samples of one 30-byte string are
NOT "shorter than 30 characters", yet the code's `≤ 30` check accepts them
and an enum is set. -/
theorem C4_counterexample :
    ¬("aaaaaaaaaaaaaaaaaaaaaaaaaaaaaa".utf8ByteSize < 30) ∧
    ((InferSchemaF 1
        (((NewTypeInferrer 10).AddSample "p"
          (.vstr "aaaaaaaaaaaaaaaaaaaaaaaaaaaaaa")).AddSample "p"
          (.vstr "aaaaaaaaaaaaaaaaaaaaaaaaaaaaaa"))
        "p").1.map Schema.enum =
      some [Val.vstr "aaaaaaaaaaaaaaaaaaaaaaaaaaaaaa"]) := by
  constructor
  · decide
  · simp only [InferSchemaF, enhanceSchema]
    decide

/-- Witness for C4 (amended) on the samples red, green, blue, red, green:
a duplicate-free enum whose members are exactly the three distinct
values, and no format. -/
theorem C4_enum_detection_witness :
    ∃ s, (InferSchemaF 1
      ((((((NewTypeInferrer 10).AddSample "p" (.vstr "red")).AddSample "p"
        (.vstr "green")).AddSample "p" (.vstr "blue")).AddSample "p"
        (.vstr "red")).AddSample "p" (.vstr "green")) "p").1 = some s ∧
      s.enum.Nodup ∧
      (∀ v, v ∈ s.enum ↔ v ∈ [Val.vstr "red", .vstr "green", .vstr "blue"]) ∧
      s.format = "" := by
  obtain ⟨s, h1, h2, h3, h4⟩ := C4_enum_detection 0
    ((((((NewTypeInferrer 10).AddSample "p" (.vstr "red")).AddSample "p"
      (.vstr "green")).AddSample "p" (.vstr "blue")).AddSample "p"
      (.vstr "red")).AddSample "p" (.vstr "green")) "p"
    [.vstr "red", .vstr "green", .vstr "blue", .vstr "red", .vstr "green"]
    (by rfl) (by simp)
    (by
      intro v hv
      simp at hv
      rcases hv with rfl | rfl | rfl | rfl | rfl
      exacts [⟨"red", rfl⟩, ⟨"green", rfl⟩, ⟨"blue", rfl⟩, ⟨"red", rfl⟩,
        ⟨"green", rfl⟩])
  obtain ⟨hnd, hmem⟩ := h3 (h2.mpr (by decide))
  refine ⟨s, h1, hnd, ?_, ?_⟩
  · intro v
    rw [hmem v]
    constructor
    · rintro ⟨x, hx, rfl⟩
      simp [strOfVal] at hx ⊢
      tauto
    · intro hv
      simp only [List.mem_cons, List.not_mem_nil, or_false] at hv
      rcases hv with rfl | rfl | rfl
      · exact ⟨"red", by decide, rfl⟩
      · exact ⟨"green", by decide, rfl⟩
      · exact ⟨"blue", by decide, rfl⟩
  · have hfmt := h4 "red" rfl
    rw [hfmt]
    rfl

/-- No sample is nil exactly when the nil tally is zero. -/
theorem nullCountOf_eq_zero (l : List Val) (h : Val.vnull ∉ l) :
    nullCountOf l = 0 := by
  rw [nullCountOf, List.countP_eq_zero]
  intro a ha hcontra
  cases a <;> simp at hcontra
  exact h ha

/-- Single-value inference never marks a schema nullable. -/
theorem inferType_nullable (v : Val) : (inferType v).nullable = false := by
  cases v with
  | varr items => cases items <;> simp [inferType, Schema.nullable]
  | vnum q =>
    simp only [inferType]
    split <;> simp [Schema.nullable]
  | _ => simp [inferType, Schema.nullable]

/-- String enhancement leaves the nullable flag untouched. -/
theorem enhanceStringSchema_nullable (schema : Schema) (samples : List Val) :
    (enhanceStringSchema schema samples).nullable = schema.nullable := by
  simp only [enhanceStringSchema]
  repeat' split
  all_goals simp

/-- Numeric enhancement leaves the nullable flag untouched. -/
theorem enhanceNumberSchema_nullable (schema : Schema) (samples : List Val) :
    (enhanceNumberSchema schema samples).nullable = schema.nullable := by
  simp only [enhanceNumberSchema]
  repeat' split
  all_goals simp

/-- Array enhancement leaves the nullable flag untouched. -/
theorem enhanceArraySchema_nullable (maxS : Nat) (schema : Schema) (samples : List Val) :
    (enhanceArraySchema maxS schema samples).nullable = schema.nullable := by
  rw [enhanceArraySchema]
  split
  · rfl
  · simp

/-- Schema enhancement leaves the nullable flag untouched. -/
theorem enhanceSchema_nullable (maxS : Nat) (schema : Schema) (samples : List Val) :
    (enhanceSchema maxS schema samples).nullable = schema.nullable := by
  rw [enhanceSchema]
  repeat' split
  all_goals simp [enhanceStringSchema_nullable, enhanceNumberSchema_nullable,
    enhanceArraySchema_nullable]

/-- The mixed-type handler's schema is nullable exactly when the nil tally
is strictly between zero and the sample count. -/
theorem handleMixedTypesF_nullable (fuel : Nat) (t : TypeInferrer) (path : String) :
    (handleMixedTypesF fuel t path).1.nullable =
      decide (0 < nullCountOf ((t.samples path).getD []) ∧
        nullCountOf ((t.samples path).getD []) < ((t.samples path).getD []).length) := by
  rw [handleMixedTypesF]
  repeat' split
  all_goals simp [Schema.nullable]

/-- The schema `InferSchemaF` returns for a path whose stored samples are
nil-free has nullable = false at top level. -/
theorem InferSchemaF_top_nullable_false (fuel : Nat) (t : TypeInferrer) (path : String)
    (samples : List Val) (s : Schema) (hs : t.samples path = some samples)
    (hnn : Val.vnull ∉ samples) (hres : (InferSchemaF fuel t path).1 = some s) :
    s.nullable = false := by
  cases fuel with
    | zero => simp [InferSchemaF] at hres
    | succ fuel =>
      cases samples with
      | nil => simp [InferSchemaF, hs] at hres
      | cons s0 rest =>
        have hunfold : InferSchemaF (fuel + 1) t path =
            if rest.all (fun s => (inferType s).type == (inferType s0).type)
            then (some (enhanceSchema t.maxSamples (inferType s0) (s0 :: rest)), t)
            else (some (handleMixedTypesF fuel t path).1, (handleMixedTypesF fuel t path).2) := by
          simp only [InferSchemaF]
          rw [hs]
        rw [hunfold] at hres
        by_cases hb : rest.all
            (fun s => (inferType s).type == (inferType s0).type) = true
        · rw [if_pos hb] at hres
          simp only [Option.some.injEq] at hres
          rw [← hres, enhanceSchema_nullable, inferType_nullable]
        · rw [if_neg hb] at hres
          simp only [Option.some.injEq] at hres
          rw [← hres, handleMixedTypesF_nullable]
          simp only [hs, Option.getD_some]
          rw [nullCountOf_eq_zero _ hnn]
          simp

/-- C2 (amended): `AddSample` silently drops nil values, so a path's stored
samples never contain nil, and whenever the stored samples at a path are
nil-free the inferred schema for that path has nullable = false — the
claimed "null plus non-null samples give nullable = true" can never happen
at top level (nullable only ever arises for sometimes-absent object
properties, see C8). -/
theorem C2_nullable_requires_stored_nulls :
    (∀ (t : TypeInferrer) (path : String), t.AddSample path Val.vnull = t) ∧
    (∀ (fuel : Nat) (t : TypeInferrer) (path : String) (samples : List Val) (s : Schema),
      t.samples path = some samples → Val.vnull ∉ samples →
      (InferSchemaF fuel t path).1 = some s → s.nullable = false) :=
  ⟨fun _ _ => rfl, fun fuel t path samples s hs hnn hres =>
    InferSchemaF_top_nullable_false fuel t path samples s hs hnn hres⟩

/-- Counterexample for C2 as stated: adding an explicit nil sample and then
the string "a" at one path yields a schema with nullable = false — the nil
was never stored. -/
theorem C2_counterexample :
    ((InferSchemaF 1 (((NewTypeInferrer 10).AddSample "p" Val.vnull).AddSample "p"
        (.vstr "a")) "p").1.map Schema.nullable) = some false ∧
    ((NewTypeInferrer 10).AddSample "p" Val.vnull).samples "p" = none := by
  constructor
  · simp only [InferSchemaF, enhanceSchema]
    decide
  · rfl

/-- Witness for C2 (amended) on a single string sample. -/
theorem C2_nullable_requires_stored_nulls_witness :
    Val.vnull ∉ [Val.vstr "a"] ∧
    (Schema.mk "string" "" [] none [] [] (some (Val.vstr "a")) false).nullable = false := by
  constructor
  · decide
  · exact C2_nullable_requires_stored_nulls.2 1
      ((NewTypeInferrer 10).AddSample "p" (.vstr "a")) "p" [.vstr "a"] _
      (by rfl) (by decide)
      (by
        simp only [InferSchemaF, enhanceSchema]
        rfl)

/-! ### The sample-map invariant (claims C8 and C9) -/

/-- A fresh inferrer satisfies the sample-map invariant. -/
theorem SampleInv_NewTypeInferrer (m : Int) : SampleInv (NewTypeInferrer m) := by
  constructor
  · show 1 ≤ (if m ≤ 0 then 10 else m.toNat)
    split <;> omega
  · intro p l h
    simp [NewTypeInferrer] at h

/-- `AddSample` preserves the sample-map invariant. -/
theorem SampleInv_AddSample (t : TypeInferrer) (path : String) (v : Val)
    (h : SampleInv t) : SampleInv (t.AddSample path v) := by
  obtain ⟨hmax, hsam⟩ := h
  have key : ∀ hv : v ≠ Val.vnull,
      SampleInv (match t.samples path with
        | some samples =>
          if t.maxSamples ≤ samples.length then t
          else { t with samples :=
            fun p => if p == path then some (samples ++ [v]) else t.samples p }
        | none => { t with samples :=
            fun p => if p == path then some [v] else t.samples p }) := by
    intro hv
    split
    · rename_i samples hsc
      split
      · exact ⟨hmax, hsam⟩
      · rename_i hcap
        refine ⟨hmax, ?_⟩
        intro p l hp
        simp only at hp
        by_cases hpp : p == path
        · rw [if_pos hpp] at hp
          obtain rfl : samples ++ [v] = l := by simpa using hp
          obtain ⟨hlen, hnn⟩ := hsam path samples hsc
          refine ⟨by simp; omega, ?_⟩
          intro hmem
          rcases List.mem_append.mp hmem with hm | hm
          · exact hnn hm
          · exact hv ((List.mem_singleton.mp hm).symm)
        · rw [if_neg hpp] at hp
          exact hsam p l hp
    · rename_i hsc
      refine ⟨hmax, ?_⟩
      intro p l hp
      simp only at hp
      by_cases hpp : p == path
      · rw [if_pos hpp] at hp
        obtain rfl : [v] = l := by simpa using hp
        refine ⟨by simpa using hmax, ?_⟩
        intro hmem
        exact hv (by simpa using (List.mem_singleton.mp hmem).symm)
      · rw [if_neg hpp] at hp
        exact hsam p l hp
  cases v with
  | vnull => exact ⟨hmax, hsam⟩
  | vstr s => exact key (by simp)
  | vnum q => exact key (by simp)
  | vbool b => exact key (by simp)
  | vobj fields => exact key (by simp)
  | varr items => exact key (by simp)

/-- A fold whose step preserves the sample-map invariant preserves it. -/
theorem foldl_SampleInv {α : Type} (step : TypeInferrer → α → TypeInferrer)
    (hstep : ∀ acc a, SampleInv acc → SampleInv (step acc a)) (l : List α) :
    ∀ t, SampleInv t → SampleInv (l.foldl step t) := by
  induction l with
  | nil => intro t h; simpa using h
  | cons a rest ih =>
    intro t h
    rw [List.foldl_cons]
    exact ih _ (hstep t a h)

/-- Adding all property sub-samples preserves the sample-map invariant. -/
theorem addPropSamples_inv (t : TypeInferrer) (path : String) (samples : List Val)
    (h : SampleInv t) : SampleInv (addPropSamples t path samples) := by
  rw [addPropSamples]
  refine foldl_SampleInv _ ?_ samples t h
  intro acc a hacc
  cases a with
  | vobj fields =>
    exact foldl_SampleInv _
      (fun acc2 kv h2 => SampleInv_AddSample acc2 (path ++ "." ++ kv.1) kv.2 h2)
      fields acc hacc
  | vnull => exact hacc
  | vstr s => exact hacc
  | vnum q => exact hacc
  | vbool b => exact hacc
  | varr items => exact hacc

/-- The per-property loop preserves the sample-map invariant, assuming the
same-fuel `InferSchemaF` does. -/
theorem inferPropsLoopF_inv (fuel : Nat)
    (hP : ∀ t path, SampleInv t → SampleInv (InferSchemaF fuel t path).2)
    (path : String) (samples : List Val) (objCount : Nat) :
    ∀ (keys : List String) (t : TypeInferrer), SampleInv t →
      SampleInv (inferPropsLoopF fuel path samples objCount keys t).2 := by
  intro keys
  induction keys with
  | nil =>
    intro t h
    rw [inferPropsLoopF]
    exact h
  | cons name restKeys ih =>
    intro t h
    rw [inferPropsLoopF]
    split
    · exact ih _ (hP t _ h)
    · exact ih _ (hP t _ h)

/-- Object-property inference preserves the sample-map invariant, assuming
the same-fuel `InferSchemaF` does. -/
theorem inferObjectPropertiesF_inv (fuel : Nat)
    (hP : ∀ t path, SampleInv t → SampleInv (InferSchemaF fuel t path).2)
    (t : TypeInferrer) (path : String) (h : SampleInv t) :
    SampleInv (inferObjectPropertiesF fuel t path).2 := by
  rw [inferObjectPropertiesF]
  exact inferPropsLoopF_inv fuel hP _ _ _ _ _ (addPropSamples_inv _ _ _ h)

/-- Array-item inference preserves the sample-map invariant, assuming the
same-fuel `InferSchemaF` does. -/
theorem inferArrayItemsF_inv (fuel : Nat)
    (hP : ∀ t path, SampleInv t → SampleInv (InferSchemaF fuel t path).2)
    (t : TypeInferrer) (path : String) (h : SampleInv t) :
    SampleInv (inferArrayItemsF fuel t path).2 := by
  rw [inferArrayItemsF]
  have hfold : SampleInv (((t.samples path).getD []).foldl
      (fun acc s => match s with
        | .varr items => items.foldl (fun a i => a.AddSample (path ++ "[]") i) acc
        | _ => acc) t) := by
    refine foldl_SampleInv _ ?_ _ t h
    intro acc a hacc
    cases a with
    | varr items =>
      exact foldl_SampleInv _
        (fun a2 i h2 => SampleInv_AddSample a2 (path ++ "[]") i h2) items acc hacc
    | vnull => exact hacc
    | vstr s => exact hacc
    | vnum q => exact hacc
    | vbool b => exact hacc
    | vobj fields => exact hacc
  split
  · exact hP _ _ hfold
  · exact hfold

/-- The mixed-type handler preserves the sample-map invariant, assuming the
same-fuel `InferSchemaF` does. -/
theorem handleMixedTypesF_inv (fuel : Nat)
    (hP : ∀ t path, SampleInv t → SampleInv (InferSchemaF fuel t path).2)
    (t : TypeInferrer) (path : String) (h : SampleInv t) :
    SampleInv (handleMixedTypesF fuel t path).2 := by
  rw [handleMixedTypesF]
  repeat' split
  all_goals
    first
      | exact h
      | exact inferObjectPropertiesF_inv fuel hP t path h
      | exact inferArrayItemsF_inv fuel hP t path h

/-- `InferSchemaF` preserves the sample-map invariant at every fuel. -/
theorem InferSchemaF_inv (fuel : Nat) :
    ∀ (t : TypeInferrer) (path : String), SampleInv t →
      SampleInv (InferSchemaF fuel t path).2 := by
  induction fuel with
  | zero =>
    intro t path h
    rw [InferSchemaF]
    exact h
  | succ fuel ih =>
    intro t path h
    simp only [InferSchemaF]
    repeat' split
    all_goals first | exact h | exact handleMixedTypesF_inv fuel ih t path h

/-- C9: the sample-map invariant — cap at least one, every stored list at
most `maxSamples` long and nil-free — holds for a fresh inferrer and is
preserved by `AddSample` and by the whole recursive inference family
(which populates sub-paths through the same `AddSample`); moreover
`AddSample` either leaves the map unchanged or appends the new value at
the tail of its path's list, leaving every other path untouched
(insertion order preserved, duplicates kept). -/
theorem C9_sample_invariant :
    (∀ m : Int, SampleInv (NewTypeInferrer m)) ∧
    (∀ (t : TypeInferrer) (p : String) (v : Val),
      SampleInv t → SampleInv (t.AddSample p v)) ∧
    (∀ (t : TypeInferrer) (p : String) (v : Val),
      t.AddSample p v = t ∨
      ((t.AddSample p v).samples p = some ((t.samples p).getD [] ++ [v]) ∧
       ∀ p', p' ≠ p → (t.AddSample p v).samples p' = t.samples p')) ∧
    (∀ (fuel : Nat) (t : TypeInferrer) (path : String),
      SampleInv t → SampleInv (InferSchemaF fuel t path).2) := by
  refine ⟨SampleInv_NewTypeInferrer, SampleInv_AddSample, ?_, InferSchemaF_inv⟩
  intro t p v
  have key : ∀ v' : Val, v' ≠ Val.vnull → t.AddSample p v' = t ∨
      ((t.AddSample p v').samples p = some ((t.samples p).getD [] ++ [v']) ∧
       ∀ p', p' ≠ p → (t.AddSample p v').samples p' = t.samples p') := by
    intro v' hv
    have hbody : t.AddSample p v' =
        (match t.samples p with
          | some samples =>
            if t.maxSamples ≤ samples.length then t
            else { t with samples :=
              fun p2 => if p2 == p then some (samples ++ [v']) else t.samples p2 }
          | none => { t with samples :=
              fun p2 => if p2 == p then some [v'] else t.samples p2 }) := by
      cases v' with
      | vnull => exact absurd rfl hv
      | vstr s => rfl
      | vnum q => rfl
      | vbool b => rfl
      | vobj fields => rfl
      | varr items => rfl
    rw [hbody]
    split
    · rename_i samples hsc
      split
      · exact Or.inl rfl
      · refine Or.inr ⟨?_, ?_⟩
        · simp [hsc]
        · intro p' hp'
          simp [hp']
    · rename_i hsc
      refine Or.inr ⟨?_, ?_⟩
      · simp [hsc]
      · intro p' hp'
        simp [hp']
  cases v with
  | vnull => exact Or.inl rfl
  | vstr s => exact key _ (by simp)
  | vnum q => exact key _ (by simp)
  | vbool b => exact key _ (by simp)
  | vobj fields => exact key _ (by simp)
  | varr items => exact key _ (by simp)

/-- Witness for C9: the invariant holds after building an inferrer, adding
a sample and running inference. -/
theorem C9_sample_invariant_witness :
    SampleInv ((InferSchemaF 1 ((NewTypeInferrer 10).AddSample "p" (.vstr "a")) "p").2) ∧
    ((NewTypeInferrer 10).AddSample "p" (.vstr "a")).samples "p" = some [.vstr "a"] := by
  constructor
  · exact C9_sample_invariant.2.2.2 1 _ "p"
      (C9_sample_invariant.2.1 _ "p" _ (C9_sample_invariant.1 10))
  · have h := C9_sample_invariant.2.2.1 (NewTypeInferrer 10) "p" (.vstr "a")
    rcases h with h | h
    · have : ((NewTypeInferrer 10).AddSample "p" (.vstr "a")).samples "p" = none := by
        rw [h]
        rfl
      rw [this] at *
      exact absurd (congrArg (fun t : TypeInferrer => t.samples "p") h) (by decide)
    · rw [h.1]
      rfl

/-- A path with no stored samples yields no schema. -/
theorem InferSchemaF_none (fuel : Nat) (t : TypeInferrer) (path : String)
    (hs : t.samples path = none) : (InferSchemaF fuel t path).1 = none := by
  cases fuel with
  | zero => rw [InferSchemaF]
  | succ fuel => simp [InferSchemaF, hs]

/-- Nullability in the per-property loop: a produced property sub-schema is
nullable exactly when its presence count is below the object count. -/
theorem inferPropsLoopF_nullable (fuel : Nat) (path : String) (samples : List Val)
    (objCount : Nat) :
    ∀ (keys : List String) (t : TypeInferrer), SampleInv t →
      ∀ name s2, (name, s2) ∈ (inferPropsLoopF fuel path samples objCount keys t).1 →
        (s2.nullable = true ↔ propCountOf samples name < objCount) := by
  intro keys
  induction keys with
  | nil =>
    intro t h name s2 hmem
    rw [inferPropsLoopF] at hmem
    simp at hmem
  | cons key0 restKeys ih =>
    intro t h name s2 hmem
    simp only [inferPropsLoopF] at hmem
    split at hmem
    · rename_i s hr
      rcases List.mem_cons.mp hmem with heq | hmem2
      · rw [Prod.mk.injEq] at heq
        obtain ⟨rfl, rfl⟩ := heq
        split
        · rename_i hc
          simp [hc]
        · rename_i hc
          simp only [hc, iff_false]
          cases hss : t.samples (path ++ "." ++ name) with
          | none =>
            rw [InferSchemaF_none fuel _ _ hss] at hr
            exact absurd hr (by simp)
          | some l =>
            have hnl := (h.2 _ _ hss).2
            have hfalse := InferSchemaF_top_nullable_false fuel t _ l s hss hnl hr
            simp [hfalse]
      · exact ih _ (InferSchemaF_inv fuel t _ h) name s2 hmem2
    · exact ih _ (InferSchemaF_inv fuel t _ h) name s2 hmem

/-- C8: a property's sub-schema is marked nullable exactly when the
property's presence count over the object samples is strictly below the
path's object-sample count; equivalently, the name-to-nullable projection
of the inferred property map is the pointwise presence test. -/
theorem C8_property_nullability (fuel : Nat) (t : TypeInferrer) (path : String)
    (hinv : SampleInv t) :
    (∀ name s2, (name, s2) ∈ (inferObjectPropertiesF fuel t path).1 →
      (s2.nullable = true ↔
        propCountOf ((t.samples path).getD []) name <
          objectCountOf ((t.samples path).getD []))) ∧
    ((inferObjectPropertiesF fuel t path).1.map (fun kv => (kv.1, kv.2.nullable)) =
      (inferObjectPropertiesF fuel t path).1.map (fun kv =>
        (kv.1, decide (propCountOf ((t.samples path).getD []) kv.1 <
          objectCountOf ((t.samples path).getD []))))) := by
  have hmain : ∀ name s2, (name, s2) ∈ (inferObjectPropertiesF fuel t path).1 →
      (s2.nullable = true ↔
        propCountOf ((t.samples path).getD []) name <
          objectCountOf ((t.samples path).getD [])) := by
    intro name s2 hmem
    rw [inferObjectPropertiesF] at hmem
    exact inferPropsLoopF_nullable fuel path _ _ _ _
      (addPropSamples_inv _ _ _ hinv) name s2 hmem
  refine ⟨hmain, List.map_congr_left ?_⟩
  intro kv hkv
  have h := hmain kv.1 kv.2 (by simpa using hkv)
  simp only [Prod.mk.injEq]
  refine ⟨trivial, ?_⟩
  by_cases hn : kv.2.nullable = true
  · rw [hn]
    simp [h.mp hn]
  · have hfalse : kv.2.nullable = false := by simpa using hn
    rw [hfalse]
    have hnc : ¬ propCountOf ((t.samples path).getD []) kv.1 <
        objectCountOf ((t.samples path).getD []) := fun hc => hn (h.mpr hc)
    simp [hnc]

/-- Witness for C8 on the samples {id:1, name:"Alice"} and
{id:2, name:"Bob", email:"bob@x.com"}: three properties, with email
nullable and id, name not. -/
theorem C8_property_nullability_witness :
    ((inferObjectPropertiesF 1
      (((NewTypeInferrer 10).AddSample "p"
        (.vobj [("id", .vnum 1), ("name", .vstr "Alice")])).AddSample "p"
        (.vobj [("id", .vnum 2), ("name", .vstr "Bob"), ("email", .vstr "bob@x.com")]))
      "p").1.map (fun kv => (kv.1, kv.2.nullable))) =
      [("id", false), ("name", false), ("email", true)] := by
  have hinv := SampleInv_AddSample _ "p"
    (.vobj [("id", .vnum 2), ("name", .vstr "Bob"), ("email", .vstr "bob@x.com")])
    (SampleInv_AddSample _ "p" (.vobj [("id", .vnum 1), ("name", .vstr "Alice")])
      (SampleInv_NewTypeInferrer 10))
  rw [(C8_property_nullability 1 _ "p" hinv).2]
  have hsam : (((NewTypeInferrer 10).AddSample "p"
      (.vobj [("id", .vnum 1), ("name", .vstr "Alice")])).AddSample "p"
      (.vobj [("id", .vnum 2), ("name", .vstr "Bob"),
        ("email", .vstr "bob@x.com")])).samples "p" =
      some [.vobj [("id", .vnum 1), ("name", .vstr "Alice")],
        .vobj [("id", .vnum 2), ("name", .vstr "Bob"), ("email", .vstr "bob@x.com")]] := by
    rfl
  have hkeys : dedupStr (objKeysOf
      [Val.vobj [("id", .vnum 1), ("name", .vstr "Alice")],
       Val.vobj [("id", .vnum 2), ("name", .vstr "Bob"), ("email", .vstr "bob@x.com")]]) =
      ["id", "name", "email"] := by decide
  simp only [inferObjectPropertiesF, hsam, Option.getD_some, hkeys, inferPropsLoopF,
    InferSchemaF, enhanceSchema]
  decide

/-- The count carried by the majority-selection chain is the maximum of
the five kind tallies (nil samples never become dominant). -/
theorem dominantOf_fst (samples : List Val) :
    (dominantOf samples).1 =
      max (max (max (max (stringCountOf samples) (numberCountOf samples))
        (boolCountOf samples)) (objectCountOf samples)) (arrayCountOf samples) := by
  have hfst : ∀ (c : Prop) (inst : Decidable c) (a : Nat) (str : String) (p : Nat × String),
      (if c then (a, str) else p).1 = if c then a else p.1 := by
    intro c inst a str p
    split <;> rfl
  have hmax : ∀ (x y : Nat), (if x < y then y else x) = max x y := by
    intro x y
    split <;> omega
  simp only [dominantOf, hfst, hmax]
  omega

/-- C3 (amended): for a path whose samples have mixed inferred types,
inference routes through the mixed-type handler; the handler's dominant
count is the maximum of the five kind tallies, and when its share of the
total strictly exceeds 0.7 the schema's type is the handler's dominant
type — the dominant KIND's name, except that a dominant number kind all
of whose samples pass the int64 round-trip test yields "integer", not
"number" — recursing into
object properties or array items and format-scanning a representative
string; otherwise (no clear majority, nil-free samples) the result is
exactly the schema {type: string, format: any}. -/
theorem C3_mixed_type_majority (fuel : Nat) (t : TypeInferrer) (path : String)
    (s0 : Val) (rest : List Val) (hs : t.samples path = some (s0 :: rest))
    (hmix : ¬ (rest.all (fun s => (inferType s).type == (inferType s0).type) = true)) :
    (InferSchemaF (fuel + 1) t path).1 = some (handleMixedTypesF fuel t path).1 ∧
    (dominantOf (s0 :: rest)).1 =
      max (max (max (max (stringCountOf (s0 :: rest)) (numberCountOf (s0 :: rest)))
        (boolCountOf (s0 :: rest))) (objectCountOf (s0 :: rest)))
        (arrayCountOf (s0 :: rest)) ∧
    (7 * (s0 :: rest).length < 10 * (dominantOf (s0 :: rest)).1 →
      ((handleMixedTypesF fuel t path).1.type = (dominantOf (s0 :: rest)).2 ∧
       ((dominantOf (s0 :: rest)).2 = "object" →
         (handleMixedTypesF fuel t path).1.properties =
           (inferObjectPropertiesF fuel t path).1) ∧
       ((dominantOf (s0 :: rest)).2 = "array" →
         (handleMixedTypesF fuel t path).1.items = (inferArrayItemsF fuel t path).1) ∧
       ((dominantOf (s0 :: rest)).2 = "string" →
         (handleMixedTypesF fuel t path).1.format = firstStringFormat (s0 :: rest)))) ∧
    (¬ 7 * (s0 :: rest).length < 10 * (dominantOf (s0 :: rest)).1 →
      Val.vnull ∉ (s0 :: rest) →
      (handleMixedTypesF fuel t path).1 =
        Schema.mk "string" "any" [] none [] [] none false) := by
  have hunfold : InferSchemaF (fuel + 1) t path =
      if rest.all (fun s => (inferType s).type == (inferType s0).type)
      then (some (enhanceSchema t.maxSamples (inferType s0) (s0 :: rest)), t)
      else (some (handleMixedTypesF fuel t path).1, (handleMixedTypesF fuel t path).2) := by
    simp only [InferSchemaF]
    rw [hs]
  refine ⟨by rw [hunfold, if_neg hmix], dominantOf_fst _, ?_, ?_⟩
  · intro hdom
    rw [handleMixedTypesF]
    simp only [hs, Option.getD_some]
    rw [if_pos hdom]
    by_cases hobj : (dominantOf (s0 :: rest)).2 = "object"
    · rw [if_pos hobj]
      refine ⟨by simp [Schema.type, hobj], fun _ => by simp [Schema.properties], ?_, ?_⟩
      · intro harr
        rw [hobj] at harr
        simp at harr
      · intro hstr
        rw [hobj] at hstr
        simp at hstr
    · rw [if_neg hobj]
      by_cases harr : (dominantOf (s0 :: rest)).2 = "array"
      · rw [if_pos harr]
        refine ⟨by simp [Schema.type, harr], fun hobj2 => ?_,
          fun _ => by simp [Schema.items], fun hstr => ?_⟩
        · rw [harr] at hobj2
          simp at hobj2
        · rw [harr] at hstr
          simp at hstr
      · rw [if_neg harr]
        by_cases hstr : (dominantOf (s0 :: rest)).2 = "string"
        · rw [if_pos hstr]
          refine ⟨by simp [Schema.type, hstr], fun hobj2 => ?_, fun harr2 => ?_,
            fun _ => by simp [Schema.format]⟩
          · rw [hstr] at hobj2
            simp at hobj2
          · rw [hstr] at harr2
            simp at harr2
        · rw [if_neg hstr]
          exact ⟨by simp [Schema.type], fun h => absurd h hobj, fun h => absurd h harr,
            fun h => absurd h hstr⟩
  · intro hdom hnn
    rw [handleMixedTypesF]
    simp only [hs, Option.getD_some]
    rw [if_neg hdom]
    rw [nullCountOf_eq_zero _ hnn]
    simp

/-- Counterexample for C3 as stated: samples 1, 2, 3, "x" are dominated by
the float64 kind (3 of 4, share 0.75 > 0.7), yet the schema's type is
"integer", not the dominant kind "number", because every numeric sample
passes the int64 round-trip test and the handler refines the dominant
type name. -/
theorem C3_counterexample :
    ((InferSchemaF 2
      (((((NewTypeInferrer 10).AddSample "p" (.vnum 1)).AddSample "p"
        (.vnum 2)).AddSample "p" (.vnum 3)).AddSample "p" (.vstr "x"))
      "p").1.map Schema.type = some "integer") ∧
    numberCountOf [Val.vnum 1, .vnum 2, .vnum 3, .vstr "x"] = 3 ∧
    stringCountOf [Val.vnum 1, .vnum 2, .vnum 3, .vstr "x"] = 1 ∧
    boolCountOf [Val.vnum 1, .vnum 2, .vnum 3, .vstr "x"] = 0 ∧
    objectCountOf [Val.vnum 1, .vnum 2, .vnum 3, .vstr "x"] = 0 ∧
    arrayCountOf [Val.vnum 1, .vnum 2, .vnum 3, .vstr "x"] = 0 ∧
    7 * 4 < 10 * 3 ∧ ("integer" : String) ≠ "number" := by
  refine ⟨?_, by decide, by decide, by decide, by decide, by decide, by decide, by decide⟩
  simp only [InferSchemaF, handleMixedTypesF]
  decide

/-- Witness for C3 (amended) on the samples "x", "y", "z", "w", 1: the
string kind dominates with share 0.8 and the schema adopts type string. -/
theorem C3_mixed_type_majority_witness :
    ((InferSchemaF 1
      ((((((NewTypeInferrer 10).AddSample "p" (.vstr "x")).AddSample "p"
        (.vstr "y")).AddSample "p" (.vstr "z")).AddSample "p"
        (.vstr "w")).AddSample "p" (.vnum 1))
      "p").1.map Schema.type = some "string") := by
  show ((InferSchemaF (0 + 1)
      ((((((NewTypeInferrer 10).AddSample "p" (.vstr "x")).AddSample "p"
        (.vstr "y")).AddSample "p" (.vstr "z")).AddSample "p"
        (.vstr "w")).AddSample "p" (.vnum 1))
      "p").1.map Schema.type = some "string")
  have h := C3_mixed_type_majority 0
    ((((((NewTypeInferrer 10).AddSample "p" (.vstr "x")).AddSample "p"
      (.vstr "y")).AddSample "p" (.vstr "z")).AddSample "p"
      (.vstr "w")).AddSample "p" (.vnum 1))
    "p" (.vstr "x") [.vstr "y", .vstr "z", .vstr "w", .vnum 1]
    (by rfl) (by decide)
  have htype := (h.2.2.1 (by decide)).1
  rw [h.1]
  simp only [Option.map_some']
  rw [htype]
  decide

/-! ### Disjointness of the eight patterns (claim C1)

The Go code stores the patterns in a map and iterates it in an unspecified
order; the theorems below show the eight patterns are pairwise disjoint, so
every iteration order detects the same format. -/

